import Mathlib

/-!
Verification of the aphorism-processing pipeline in `src/EDA.py` (the
"parse book" part: `format_output`, `refactor_src_info`, `process_entry`,
`process_Wood`).

The Python text pipeline is shallowly embedded over `List Char`.  Python
regular expressions are modelled by equivalent character-level scanners:

* `re.sub` with a literal pattern is left-to-right non-overlapping
  replacement;
* `\d+` deletion is deletion of every digit character;
* ` {2,}` collapse maps every maximal run of spaces to a single space;
* `\b` is a word boundary (word characters: ASCII alphanumerics and the
  underscore; the corpus is ASCII so Python's Unicode `\w` agrees);
* `.` matches any character except a newline, and patterns of the form
  `X.*$` truncate from the first match of `X` to the end of the string.
  The `$` anchor and `.` agree with this model on newline-free input;
  every such pattern in the source runs after the substitution that
  replaces every newline by a space, and the theorems that quantify over
  raw inputs of those helpers carry an explicit no-newline hypothesis.
* Python `str.rstrip`/`str.strip` strip the whitespace characters
  (space, tab, newline, carriage return on this ASCII corpus).

The reference tables (`custom_data`: `shakespeare_aliases`,
`auth_lang_map`, `auth_abbrev_map`, `origin_abbrev_map`) are external
read-only data, out of scope per the specification; they are parameters
(`Tables`) of the embedding.
-/

deriving instance DecidableEq for Except

namespace Aph

abbrev Str := List Char

/-- Word character for Python `\b`: ASCII alphanumeric or underscore. -/
def wchar (c : Char) : Bool := c.isAlphanum || c == '_'

def wopt : Option Char → Bool
  | none => false
  | some c => wchar c

/-- Python word boundary between a previous character (none = string edge)
and a next character (none = string edge). -/
def bdry (p q : Option Char) : Bool := wopt p != wopt q

/-- Whitespace stripped by Python `strip`/`rstrip` (ASCII corpus). -/
def wsp (c : Char) : Bool := c == ' ' || c == '\t' || c == '\n' || c == '\r'

/-- The apostrophe character (the second `delete_conditions` pattern). -/
def apos : Char := Char.ofNat 39

/-- Python `str.rstrip()`. -/
def rstrip (cs : Str) : Str := (cs.reverse.dropWhile wsp).reverse

/-- Python `str.lstrip()`. -/
def lstrip (cs : Str) : Str := cs.dropWhile wsp

/-- Python `str.strip()`. -/
def strip (cs : Str) : Str := lstrip (rstrip cs)

/-- Python `s.split(sep)` for a one-character separator: the list of
(possibly empty) fragments between occurrences of the separator. -/
def splitOnChar (sep : Char) : Str → List Str
  | [] => [[]]
  | c :: tl =>
    if c == sep then [] :: splitOnChar sep tl
    else
      match splitOnChar sep tl with
      | [] => [[c]]
      | f :: fs => (c :: f) :: fs

/-- Python `sep.join(parts)`. -/
def joinWith (sep : Str) : List Str → Str
  | [] => []
  | [x] => x
  | x :: y :: tl => x ++ sep ++ joinWith sep (y :: tl)

/-- Python `lst[::2]`: elements at even indices. -/
def everyOther : List Str → List Str
  | [] => []
  | [x] => [x]
  | x :: _ :: tl => x :: everyOther tl

/-! ### Text normalizer: the seven substitutions of `process_entry`
(`src/EDA.py` lines 113-125). -/

/-- Substitution 1, `re.sub("\d+", "", s)`: removing every maximal digit
run deletes exactly the digit characters. -/
def ruleDigits (cs : Str) : Str := cs.filter (fun c => !c.isDigit)

/-- Substitution 2, `re.sub("\(\?\)", "", s)`: delete literal `(?)`. -/
def ruleQM : Str → Str
  | '(' :: '?' :: ')' :: tl => ruleQM tl
  | c :: tl => c :: ruleQM tl
  | [] => []

/-- Substitution 3, `re.sub("\n", " ", s)`. -/
def ruleNl (cs : Str) : Str := cs.map (fun c => if c == '\n' then ' ' else c)

/-- Substitution 4, `re.sub(" {2,}", " ", s)`: each maximal run of two or
more spaces becomes one space (equivalently, adjacent space pairs are
contracted until single). -/
def ruleSp : Str → Str
  | ' ' :: ' ' :: tl => ruleSp (' ' :: tl)
  | c :: tl => c :: ruleSp tl
  | [] => []

/-- Substitution 5, `re.sub("_ _", " ", s)`. -/
def ruleUU : Str → Str
  | '_' :: ' ' :: '_' :: tl => ' ' :: ruleUU tl
  | c :: tl => c :: ruleUU tl
  | [] => []

/-- Lookahead for substitution 6: after `= (`, the lazy `.*?\).` part
matches up to the first `)` (not crossing a newline) provided one more
non-newline character follows; returns the rest after that character. -/
def findCloseDot : Str → Option Str
  | ')' :: d :: tl => if d == '\n' then none else some tl
  | ')' :: [] => none
  | '\n' :: _ => none
  | _ :: tl => findCloseDot tl
  | [] => none

/-- Substitution 6, `re.sub("= \(.*?\).", "=", s)` (fuel-indexed scanner;
fuel at least the length of the string suffices). -/
def rule6F : Nat → Str → Str
  | 0, cs => cs
  | _ + 1, [] => []
  | f + 1, '=' :: ' ' :: '(' :: tl =>
    (match findCloseDot tl with
     | some rest => '=' :: rule6F f rest
     | none => '=' :: ' ' :: '(' :: rule6F f tl)
  | f + 1, c :: tl => c :: rule6F f tl

def rule6 (cs : Str) : Str := rule6F cs.length cs

/-- Lookahead for substitution 7: first `)` not crossing a newline. -/
def findClose : Str → Option Str
  | ')' :: tl => some tl
  | '\n' :: _ => none
  | _ :: tl => findClose tl
  | [] => none

/-- Substitution 7, `re.sub("\(_lit._ .*?\)", "", s)`; the `.` after
`lit` in the source pattern is the regex any-character. -/
def rule7F : Nat → Str → Str
  | 0, cs => cs
  | _ + 1, [] => []
  | f + 1, '(' :: '_' :: 'l' :: 'i' :: 't' :: c6 :: '_' :: ' ' :: tl =>
    if c6 == '\n' then '(' :: rule7F f ('_' :: 'l' :: 'i' :: 't' :: c6 :: '_' :: ' ' :: tl)
    else
      (match findClose tl with
       | some rest => rule7F f rest
       | none => '(' :: '_' :: 'l' :: 'i' :: 't' :: c6 :: '_' :: ' ' :: rule7F f tl)
  | f + 1, c :: tl => c :: rule7F f tl

def rule7 (cs : Str) : Str := rule7F cs.length cs

/-- The whole normalizer (`process_entry`, lines 113-125): the seven
substitutions applied in order. -/
def normalize (cs : Str) : Str :=
  rule7 (rule6 (ruleUU (ruleSp (ruleNl (ruleQM (ruleDigits cs))))))

/-! Match predicates for the seven substitution patterns (whether the
pattern occurs anywhere in the string). -/

def hasDigit (cs : Str) : Bool := cs.any Char.isDigit

def hasQM : Str → Bool
  | '(' :: '?' :: ')' :: _ => true
  | _ :: tl => hasQM tl
  | [] => false

def hasNl (cs : Str) : Bool := cs.any (fun c => c == '\n')

def hasSp2 : Str → Bool
  | ' ' :: ' ' :: _ => true
  | _ :: tl => hasSp2 tl
  | [] => false

def hasUU : Str → Bool
  | '_' :: ' ' :: '_' :: _ => true
  | _ :: tl => hasUU tl
  | [] => false

def has6F : Nat → Str → Bool
  | 0, _ => false
  | _ + 1, [] => false
  | f + 1, '=' :: ' ' :: '(' :: tl =>
    (match findCloseDot tl with
     | some _ => true
     | none => has6F f tl)
  | f + 1, _ :: tl => has6F f tl

def has6 (cs : Str) : Bool := has6F cs.length cs

def has7F : Nat → Str → Bool
  | 0, _ => false
  | _ + 1, [] => false
  | f + 1, '(' :: '_' :: 'l' :: 'i' :: 't' :: c6 :: '_' :: ' ' :: tl =>
    if c6 == '\n' then has7F f ('_' :: 'l' :: 'i' :: 't' :: c6 :: '_' :: ' ' :: tl)
    else
      (match findClose tl with
       | some _ => true
       | none => has7F f tl)
  | f + 1, _ :: tl => has7F f tl

def has7 (cs : Str) : Bool := has7F cs.length cs

/-! ### Attribution extraction (`process_entry`, lines 127-173). -/

/-- One `.*?_` step of the reversed scan: the consumed characters up to
and including the first underscore (failing on a newline, which `.`
cannot match, or at the end). -/
def takeUnd : Str → Option (Str × Str)
  | [] => none
  | '_' :: tl => some (['_'], tl)
  | '\n' :: _ => none
  | c :: tl =>
    match takeUnd tl with
    | none => none
    | some (a, r) => some (c :: a, r)

/-- `re.findall("^.*?_.*?_", clean[::-1])[0][::-1]`: the candidate
attribution substring, i.e. the suffix of `clean` that starts at the
second-to-last underscore (none if the anchored reversed pattern fails). -/
def spanFind (clean : Str) : Option Str :=
  match takeUnd clean.reverse with
  | none => none
  | some (a, r) =>
    match takeUnd r with
    | none => none
    | some (b, _) => some (a ++ b).reverse

/-- Python `s.replace(pat, "")`, left-to-right non-overlapping
(fuel-indexed; fuel at least the length of `s` suffices). -/
def delAllF (pat : Str) : Nat → Str → Str
  | 0, cs => cs
  | _ + 1, [] => []
  | f + 1, c :: tl =>
    if pat ≠ [] && pat.isPrefixOf (c :: tl) then delAllF pat f ((c :: tl).drop pat.length)
    else c :: delAllF pat f tl

def delAll (pat cs : Str) : Str := delAllF pat cs.length cs

/-- `re.sub("(<char>).*$", "", s)` for the literal one-character patterns
`,` and `'` of `delete_conditions`: truncate at the first occurrence
(model for newline-free input). -/
def truncChar (t : Char) : Str → Str
  | [] => []
  | c :: tl => if c == t then [] else c :: truncChar t tl

/-- `re.sub("(\b<word>\b).*$", "", s)`: truncate at the first whole-word
occurrence (model for newline-free input). -/
def truncWord (w : Str) (p : Option Char) : Str → Str
  | [] => []
  | c :: tl =>
    if bdry p (some c) && w.isPrefixOf (c :: tl) && bdry w.getLast? ((c :: tl).drop w.length).head? then
      []
    else c :: truncWord w (some c) tl

/-- The fourteen whole-word trigger patterns of `delete_conditions`,
in source order (lines 144-157). -/
def triggerWords : List Str :=
  [('t' :: ['o']), ('T' :: ['o']), ('a' :: ['t']), ('A' :: ['t']),
   ('o' :: ['n']), ('O' :: ['n']), ('b' :: ['y']), ('B' :: ['y']),
   ('i' :: ['n']), ('I' :: ['n']),
   ('s' :: 'a' :: 'i' :: ['d']), ('S' :: 'a' :: 'i' :: ['d']),
   ('u' :: 'p' :: 'o' :: ['n']), ('U' :: 'p' :: 'o' :: ['n'])]

/-- The sixteen `delete_conditions` substitutions, in source order
(lines 141-163): first the `,` and `'` truncations, then the fourteen
whole-word triggers. -/
def truncAll (cs : Str) : Str :=
  triggerWords.foldl (fun s w => truncWord w none s)
    (truncChar apos (truncChar ',' cs))

/-- Token list (line 165-169): strip italics markers, split on `.`,
strip each token, drop empties. -/
def tokenize (cs : Str) : List Str :=
  ((splitOnChar '.' (cs.filter (fun c => !(c == '_')))).map strip).filter (fun t => t ≠ [])

/-! ### Abbreviation expansion (`refactor_src_info`, lines 104-109).

`re.sub(r"\bPr.\b|\bPr\b|\bProv.\b|\bProv\b", "Proverb", s)` followed by
`re.sub(r"\bM.\b|\bM\b", "Maxim", s)`.  The `.` in `Pr.`/`Prov.`/`M.` is
the regex any-character.  The scanners below implement Python's
leftmost, first-alternative matching; after a replacement the scan
continues after the matched region with the last matched character as
boundary context. -/

/-- The replacement word of the first substitution. -/
def prov : Str := ('P' :: 'r' :: 'o' :: 'v' :: 'e' :: 'r' :: ['b'])

/-- The replacement word of the second substitution. -/
def maxim : Str := ('M' :: 'a' :: 'x' :: 'i' :: ['m'])

/-- Leftmost-alternative match attempt at the current position for
`\bPr.\b|\bPr\b|\bProv.\b|\bProv\b` (given the previous character `p`):
returns the length of the matched region and its last character.
The alternatives are tried in source order. -/
def prMatch (p : Option Char) (cs : Str) : Option (Nat × Char) :=
  match cs with
  | 'P' :: 'r' :: tl =>
    if bdry p (some 'P') then
      match tl with
      | [] => some (2, 'r')
      | c3 :: tl2 =>
        if !(c3 == '\n') && bdry (some c3) tl2.head? then some (3, c3)
        else if bdry (some 'r') (some c3) then some (2, 'r')
        else
          match c3, tl2 with
          | 'o', 'v' :: tl3 =>
            (match tl3 with
             | [] => some (4, 'v')
             | c5 :: tl4 =>
               if !(c5 == '\n') && bdry (some c5) tl4.head? then some (5, c5)
               else if bdry (some 'v') (some c5) then some (4, 'v')
               else none)
          | _, _ => none
    else none
  | _ => none

/-- Match attempt for `\bM.\b|\bM\b`. -/
def mMatch (p : Option Char) (cs : Str) : Option (Nat × Char) :=
  match cs with
  | 'M' :: tl =>
    if bdry p (some 'M') then
      match tl with
      | [] => some (1, 'M')
      | c2 :: tl2 =>
        if !(c2 == '\n') && bdry (some c2) tl2.head? then some (2, c2)
        else if bdry (some 'M') (some c2) then some (1, 'M')
        else none
    else none
  | _ => none

/-- The `re.sub` scan for the `Pr` substitution: at each position either
the pattern matches (emit `Proverb`, continue after the matched region
with its last character as boundary context) or the current character is
copied.  Fuel-indexed; fuel at least the length suffices. -/
def subPrF : Nat → Option Char → Str → Str
  | 0, _, cs => cs
  | _ + 1, _, [] => []
  | f + 1, p, c :: tl =>
    match prMatch p (c :: tl) with
    | some (k, last) => prov ++ subPrF f (some last) ((c :: tl).drop k)
    | none => c :: subPrF f (some c) tl

def subPr (p : Option Char) (cs : Str) : Str := subPrF cs.length p cs

/-- The `re.sub` scan for the `M` substitution. -/
def subMF : Nat → Option Char → Str → Str
  | 0, _, cs => cs
  | _ + 1, _, [] => []
  | f + 1, p, c :: tl =>
    match mMatch p (c :: tl) with
    | some (k, last) => maxim ++ subMF f (some last) ((c :: tl).drop k)
    | none => c :: subMF f (some c) tl

def subM (p : Option Char) (cs : Str) : Str := subMF cs.length p cs

/-- The two substitutions of `refactor_src_info` on a string. -/
def expandAbbrev (cs : Str) : Str := subM none (subPr none cs)

/-- `refactor_src_info` (lines 104-109): join tokens with `". "`, then
expand the `Pr`/`Prov`/`M` abbreviations. -/
def refactor (toks : List Str) : Str := expandAbbrev (joinWith ('.' :: ' ' :: []) toks)

/-! Scanners that report whether the `subPr`/`subM` patterns match
anywhere (mirroring the branch structure of `subPrF`/`subMF`). -/

def hasPrF : Nat → Option Char → Str → Bool
  | 0, _, _ => false
  | _ + 1, _, [] => false
  | f + 1, p, c :: tl =>
    match prMatch p (c :: tl) with
    | some _ => true
    | none => hasPrF f (some c) tl

def hasPr (p : Option Char) (cs : Str) : Bool := hasPrF cs.length p cs

def hasMF : Nat → Option Char → Str → Bool
  | 0, _, _ => false
  | _ + 1, _, [] => false
  | f + 1, p, c :: tl =>
    match mMatch p (c :: tl) with
    | some _ => true
    | none => hasMF f (some c) tl

def hasM (p : Option Char) (cs : Str) : Bool := hasMF cs.length p cs

/-! ### Reference tables and result types. -/

/-- The external reference tables of `custom_data` (read-only data,
out of scope per the specification): Shakespeare aliases as a membership
test, and the three maps as partial lookups (`none` models a Python
`KeyError` / failed `in`). -/
structure Tables where
  aliasMem : Str → Bool
  authLang : Str → Option Str
  authAbbrev : Str → Option Str
  originAbbrev : Str → Option Str

/-- Empty tables (every lookup fails). -/
def noTables : Tables :=
  { aliasMem := fun _ => false
    authLang := fun _ => none
    authAbbrev := fun _ => none
    originAbbrev := fun _ => none }

/-- The dynamically-typed Python `src_info` value returned by
`process_entry`: `None`, a list of tokens, or a string. -/
inductive SrcInfo where
  | nil : SrcInfo
  | toks : List Str → SrcInfo
  | str : Str → SrcInfo
deriving DecidableEq

/-- Python truthiness of a `src_info` value. -/
def SrcInfo.truthy : SrcInfo → Bool
  | .nil => false
  | .toks l => !l.isEmpty
  | .str s => !s.isEmpty

/-- Result 4-tuple of `process_entry`:
`(original, translation, src_origin, src_info)`. -/
structure PRes where
  original : Str
  translation : Str
  origin : Str
  srcInfo : SrcInfo
deriving DecidableEq

/-- The per-entry errors the corpus driver catches: a failed
`assert` (`FormatInvariantViolation`) or an `IndexError`
(`StructuralParseFailure`). -/
inductive PErr where
  | formatInvariant : PErr
  | structural : PErr
deriving DecidableEq

/-- Output record of `format_output`:
`(src_origin, original, translation, src_info)` with `None` holes. -/
structure Rec where
  origin : Str
  originalText : Option Str
  translationText : Option Str
  sourceInfo : Option SrcInfo
deriving DecidableEq

/-! ### `process_entry`, split along the spec's component boundaries. -/

/-- Line 171-173: replace a token list whose refactored join is a known
Shakespeare alias by the single token `Shakespeare`. -/
def aliasCollapse (T : Tables) (toks : List Str) : List Str :=
  if T.aliasMem (refactor toks) then
    [('S' :: 'h' :: 'a' :: 'k' :: 'e' :: 's' :: 'p' :: 'e' :: 'a' :: 'r' :: ['e'])]
  else toks

/-- Attribution extraction (`process_entry` lines 127-173): find the
candidate `_..._` span by the reversed scan, delete it from the text
(trailing-trimming the text), truncate the span at the
`delete_conditions`, tokenize, and collapse Shakespeare aliases.
Returns the cleaned text and the optional token list. -/
def extractAttribution (T : Tables) (clean : Str) : Str × Option (List Str) :=
  match spanFind clean with
  | none => (clean, none)
  | some sp =>
    let clean2 := rstrip (delAll sp clean)
    let sis := truncAll (rstrip sp)
    (clean2, some (aliasCollapse T (tokenize sis)))

/-- Capture up to the first `]`, failing on a newline or the end
(the lazy `(.*?)\]` part of the Greek pattern). -/
def takeBrk : Str → Option Str
  | [] => none
  | ']' :: _ => some []
  | '\n' :: _ => none
  | c :: tl =>
    match takeBrk tl with
    | none => none
    | some x => some (c :: x)

def greekFindF : Nat → Str → Option Str
  | 0, _ => none
  | _ + 1, [] => none
  | f + 1, '[' :: 'G' :: 'r' :: 'e' :: 'e' :: 'k' :: ':' :: ' ' :: tl =>
    (match takeBrk tl with
     | some x => some x
     | none => greekFindF f ('G' :: 'r' :: 'e' :: 'e' :: 'k' :: ':' :: ' ' :: tl))
  | f + 1, _ :: tl => greekFindF f tl

def greekFind (cs : Str) : Option Str := greekFindF cs.length cs

/-- `re.sub(", _i.e._.*?$", "", t)` (line 205): truncate at the first
occurrence of the pattern `, _i<any>e<any>_` (model for newline-free
input; the two `.` in `_i.e._` are regex any-characters). -/
def truncIE : Str → Str
  | ',' :: ' ' :: '_' :: 'i' :: c5 :: 'e' :: c7 :: '_' :: tl =>
    if c5 == '\n' || c7 == '\n' then ',' :: truncIE (' ' :: '_' :: 'i' :: c5 :: 'e' :: c7 :: '_' :: tl)
    else []
  | c :: tl => c :: truncIE tl
  | [] => []

/-- The ordered origin/source resolution rules applied to a non-empty
attribution token list (`process_entry` lines 219-247): author-table
lookup, then law-maxim form, then origin abbreviation.  `none` means all
three rules fell through. -/
def resolveAttribution (T : Tables) (t : Str) (ts : List Str) : Option (Str × Str) :=
  let author := refactor (t :: ts)
  match T.authLang author with
  | some lang => some (lang, (T.authAbbrev author).getD author)
  | none =>
    if t = ('L' :: []) || t = ('L' :: 'a' :: ['w']) then
      some (('L' :: 'a' :: 't' :: 'i' :: ['n']), refactor (('L' :: 'a' :: ['w']) :: ts))
    else
      match T.originAbbrev t with
      | some lang => some (lang, refactor ts)
      | none => none

def unkStr : Str := ('U' :: 'N' :: ['K'])

def latinStr : Str := ('L' :: 'a' :: 't' :: 'i' :: ['n'])

def emdash : Str := ('-' :: ['-'])

/-- The literal string `[Greek: X]` removed from the cleaned text
(line 179). -/
def greekPat (x : Str) : Str :=
  ('[' :: 'G' :: 'r' :: 'e' :: 'e' :: 'k' :: ':' :: ' ' :: []) ++ x ++ (']' :: [])

/-- Lines 185-189: the `src_info` of a Greek entry — drop a leading
`Gr` token and refactor; an absent or empty attribution is passed
through unchanged. -/
def greekSrcInfo (si : Option (List Str)) : SrcInfo :=
  match si with
  | some (t :: ts) => .str (refactor (if t = ('G' :: ['r']) then ts else t :: ts))
  | some [] => .toks []
  | none => .nil

/-- Entry parsing after attribution extraction (`process_entry` lines
176-261): the Greek special form, else the `=`-delimited default form,
followed by origin/source resolution.  A failed `assert` is `.error
.formatInvariant`. -/
def parseCleaned (T : Tables) (clean : Str) (si : Option (List Str)) : Except PErr PRes :=
  match greekFind clean with
  | some x =>
    let rem := delAll (greekPat x) clean
    if rem.take 2 = emdash then
      .ok ⟨x, rstrip (rem.drop 2), ('G' :: 'r' :: 'e' :: 'e' :: ['k']), greekSrcInfo si⟩
    else .error .formatInvariant
  | none =>
    let frags := splitOnChar '=' clean
    let chunks := frags.filter (fun c => c ≠ [])
    let original := rstrip (joinWith (' ' :: []) (everyOther chunks))
    let t0 := rstrip (truncIE (frags.getLastD []))
    if t0 ≠ [] && t0.take 2 ≠ emdash then .error .formatInvariant
    else
      let translation := if t0.isEmpty then t0 else t0.drop 2
      match si with
      | some (t :: ts) =>
        (match resolveAttribution T t ts with
         | some (lang, s) => .ok ⟨original, translation, lang, .str s⟩
         | none =>
           .ok ⟨original, translation, if translation ≠ [] then latinStr else unkStr,
                .str (refactor (t :: ts))⟩)
      | _ =>
        .ok ⟨original, translation, if translation ≠ [] then latinStr else unkStr, .nil⟩

/-- `process_entry` (lines 112-261): normalize, extract the attribution,
parse. -/
def processEntry (T : Tables) (s : Str) : Except PErr PRes :=
  let clean := normalize s
  let (clean2, si) := extractAttribution T clean
  parseCleaned T clean2 si

/-- `format_output` (lines 94-101). -/
def formatOutput (r : PRes) : Rec :=
  let si := if r.srcInfo.truthy then some r.srcInfo else none
  if !r.translation.isEmpty then ⟨r.origin, some r.original, some r.translation, si⟩
  else ⟨r.origin, none, some r.original, si⟩

/-- One driver step: parse an entry and format it. -/
def processOne (T : Tables) (s : Str) : Except PErr Rec :=
  (processEntry T s).map formatOutput

/-! ### The corpus driver `process_Wood` (lines 264-285).

The file is modelled as the list of lines Python iteration yields (each
line keeps its trailing newline except possibly the last).  Entries
between blank lines are parsed inside `try/except` — a failing entry is
logged and skipped; after the loop the final entry is parsed *outside*
the handler, so its error propagates (models the uncaught exception). -/

/-- Python `"".join(lst)`. -/
def concatL (lst : List Str) : Str := lst.foldr (· ++ ·) []

def processWoodGo (T : Tables) (acc : List Rec) (lst : List Str) : List Str → Except PErr (List Rec)
  | [] =>
    (match processOne T (concatL lst) with
     | .ok r => .ok (acc ++ [r])
     | .error e => .error e)
  | line :: rest =>
    if line = ('\n' :: []) then
      match processOne T (concatL lst) with
      | .ok r => processWoodGo T (acc ++ [r]) [] rest
      | .error _ => processWoodGo T acc [] rest
    else processWoodGo T acc (lst ++ [line]) rest

/-- `process_Wood`: fold the file's lines, catching per-entry errors for
blank-line-terminated entries, and parse the final entry last (outside
the handler). -/
def processWood (T : Tables) (lines : List Str) : Except PErr (List Rec) :=
  processWoodGo T [] [] lines

/-- The entry strings of a line list: concatenations of the maximal
groups of lines between blank lines (one entry per blank line, plus a
final entry — possibly empty — after the last blank line). -/
def entriesOf : List Str → List Str
  | [] => [[]]
  | line :: rest =>
    if line = ('\n' :: []) then [] :: entriesOf rest
    else
      match entriesOf rest with
      | [] => [line]
      | e :: es => (line ++ e) :: es

def sampleTables : Tables :=
  { aliasMem := fun _ => false
    authLang := fun s =>
      if s = ('J' :: 'o' :: 'h' :: 'n' :: 's' :: 'o' :: ['n']) then
        some ('E' :: 'n' :: 'g' :: 'l' :: 'i' :: 's' :: ['h'])
      else none
    authAbbrev := fun _ => none
    originAbbrev := fun s =>
      if s = ('J' :: 'o' :: 'h' :: 'n' :: 's' :: 'o' :: ['n']) then
        some ('F' :: 'r' :: 'e' :: 'n' :: 'c' :: ['h'])
      else none }

/-! # Theorems -/

theorem takeUnd_some : ∀ {l a r : Str}, takeUnd l = some (a, r) →
    l = a ++ r ∧ a.count '_' = 1 := by
  intro l
  induction l using takeUnd.induct with
  | case1 => intro a r h; simp [takeUnd] at h
  | case2 tl => intro a r h; simp [takeUnd] at h; obtain ⟨h1, h2⟩ := h; subst h1; subst h2; simp [List.count_cons]
  | case3 => intro a r h; simp [takeUnd] at h
  | case4 c tl h1 h2 hnone ih =>
    intro a r h
    rw [takeUnd.eq_def] at h
    split at h
    · simp at h
    · next heq => rw [List.cons.injEq] at heq; exact absurd heq.1 h1
    · simp at h
    · next c' tl' heq =>
      rw [List.cons.injEq] at heq
      obtain ⟨hc, ht⟩ := heq; subst hc; subst ht
      rw [hnone] at h; simp at h
  | case5 c tl h1 h2 a' r' hsome ih =>
    intro a r h
    rw [takeUnd.eq_def] at h
    split at h
    · simp at h
    · next heq => rw [List.cons.injEq] at heq; exact absurd heq.1 h1
    · simp at h
    · next c' tl' heq =>
      rw [List.cons.injEq] at heq
      obtain ⟨hc, ht⟩ := heq; subst hc; subst ht
      rw [hsome] at h
      simp only [Option.some.injEq, Prod.mk.injEq] at h
      obtain ⟨ha, hr⟩ := h
      obtain ⟨he, hcnt⟩ := ih hsome
      subst ha; subst hr
      constructor
      · rw [he]; simp
      · have hc0 : (c == '_') = false := by
          refine beq_eq_false_iff_ne.mpr ?_
          intro hx; exact h1 hx
        simp [List.count_cons, hcnt, hc0]

theorem spanFind_none_of_few {cs : Str} (h : cs.count '_' ≤ 1) : spanFind cs = none := by
  unfold spanFind
  cases h1 : takeUnd cs.reverse with
  | none => rfl
  | some p =>
    obtain ⟨a, r⟩ := p
    cases h2 : takeUnd r with
    | none => simp [h2]
    | some q =>
      exfalso
      obtain ⟨b, r2⟩ := q
      obtain ⟨he1, hc1⟩ := takeUnd_some h1
      obtain ⟨he2, hc2⟩ := takeUnd_some h2
      have hrev : cs.reverse.count '_' = cs.count '_' := List.count_reverse '_' cs
      rw [he1, List.count_append, he2, List.count_append] at hrev
      omega

theorem ruleDigits_noop {cs : Str} (h : hasDigit cs = false) : ruleDigits cs = cs := by
  rw [ruleDigits, List.filter_eq_self]
  intro a ha
  simp only [hasDigit, List.any_eq_false] at h
  simp [h a ha]

theorem ruleQM_noop {cs : Str} (h : hasQM cs = false) : ruleQM cs = cs := by
  induction cs using ruleQM.induct with
  | case1 tl ih => rw [hasQM] at h; simp at h
  | case2 c tl hne ih =>
    rw [hasQM.eq_def] at h
    split at h
    · simp at h
    · next c' tl' heq =>
      rw [List.cons.injEq] at heq
      obtain ⟨hc, ht⟩ := heq; subst hc; subst ht
      rw [ruleQM.eq_def]
      split
      · next tl1 heq2 =>
        rw [List.cons.injEq] at heq2
        exact absurd heq2.2 (fun hx => hne tl1 heq2.1 hx)
      · next c2 tl2 heq2 =>
        rw [List.cons.injEq] at heq2
        obtain ⟨hc2, ht2⟩ := heq2; subst hc2; subst ht2
        rw [ih h]
      · next heq2 => simp at heq2
    · next heq => simp at heq
  | case3 => rfl

theorem ruleNl_noop {cs : Str} (h : hasNl cs = false) : ruleNl cs = cs := by
  induction cs with
  | nil => rfl
  | cons c tl ih =>
    simp only [hasNl, List.any_cons, Bool.or_eq_false_iff] at h
    obtain ⟨h1, h2⟩ := h
    simp only [ruleNl, List.map_cons, h1, Bool.false_eq_true, if_false, List.cons.injEq]
    exact ⟨trivial, ih h2⟩

theorem ruleSp_noop {cs : Str} (h : hasSp2 cs = false) : ruleSp cs = cs := by
  induction cs using ruleSp.induct with
  | case1 tl ih => simp [hasSp2] at h
  | case2 c tl hne ih =>
    rw [hasSp2.eq_def] at h
    split at h
    · simp at h
    · next c' tl' heq =>
      rw [List.cons.injEq] at heq
      obtain ⟨hc, ht⟩ := heq; subst hc; subst ht
      rw [ruleSp.eq_def]
      split
      · next tl1 heq2 =>
        rw [List.cons.injEq] at heq2
        exact absurd heq2.2 (fun hx => hne tl1 heq2.1 hx)
      · next c2 tl2 heq2 =>
        rw [List.cons.injEq] at heq2
        obtain ⟨hc2, ht2⟩ := heq2; subst hc2; subst ht2
        rw [ih h]
      · next heq2 => simp at heq2
    · next heq => simp at heq
  | case3 => rfl

theorem ruleUU_noop {cs : Str} (h : hasUU cs = false) : ruleUU cs = cs := by
  induction cs using ruleUU.induct with
  | case1 tl ih => simp [hasUU] at h
  | case2 c tl hne ih =>
    rw [hasUU.eq_def] at h
    split at h
    · simp at h
    · next c' tl' heq =>
      rw [List.cons.injEq] at heq
      obtain ⟨hc, ht⟩ := heq; subst hc; subst ht
      rw [ruleUU.eq_def]
      split
      · next tl1 heq2 =>
        rw [List.cons.injEq] at heq2
        exact absurd heq2.2 (fun hx => hne tl1 heq2.1 hx)
      · next c2 tl2 heq2 =>
        rw [List.cons.injEq] at heq2
        obtain ⟨hc2, ht2⟩ := heq2; subst hc2; subst ht2
        rw [ih h]
      · next heq2 => simp at heq2
    · next heq => simp at heq
  | case3 => rfl

theorem rule6F_noop : ∀ (f : Nat) (cs : Str), has6F f cs = false → rule6F f cs = cs := by
  intro f cs
  induction f, cs using rule6F.induct with
  | case1 cs => intro h; rfl
  | case2 f => intro h; rfl
  | case3 f tl rest hsome =>
    intro h
    simp only [has6F] at h
    rw [hsome] at h
    simp at h
  | case4 f tl hnone ih =>
    intro h
    simp only [has6F] at h
    rw [hnone] at h
    simp only [rule6F]
    rw [hnone, ih h]
  | case5 f c tl hne ih =>
    intro h
    rw [has6F.eq_def] at h
    split at h
    · omega
    · simp_all
    · next a b f2 tl2 heq1 heq2 =>
      rw [List.cons.injEq] at heq2
      exact absurd heq2.2 (fun hx => hne _ heq2.1 hx)
    · next a b f2 c2 tl2 hne2 heq1 heq2 =>
      rw [List.cons.injEq] at heq2
      obtain ⟨hc2, ht2⟩ := heq2
      have hf2 : f2 = f := Nat.succ_injective heq1.symm
      rw [← ht2, hf2] at h
      rw [rule6F.eq_def]
      split
      · omega
      · simp_all
      · next a2 b2 f3 tl3 heq3 heq4 =>
        rw [List.cons.injEq] at heq4
        exact absurd heq4.2 (fun hx => hne _ heq4.1 hx)
      · next a2 b2 f3 c3 tl3 hne3 heq3 heq4 =>
        rw [List.cons.injEq] at heq4
        obtain ⟨hc3, ht3⟩ := heq4
        have hf3 : f3 = f := Nat.succ_injective heq3.symm
        rw [hf3, ← ht3, ih h, ← hc3]

theorem rule7F_noop : ∀ (f : Nat) (cs : Str), has7F f cs = false → rule7F f cs = cs := by
  intro f cs
  induction f, cs using rule7F.induct with
  | case1 cs => intro h; rfl
  | case2 f => intro h; rfl
  | case3 f c6 tl hnl ih =>
    intro h
    simp only [has7F] at h
    rw [if_pos hnl] at h
    simp only [rule7F]
    rw [if_pos hnl, ih h]
  | case4 f c6 tl hnl rest hsome ih =>
    intro h
    simp only [has7F] at h
    rw [if_neg hnl, hsome] at h
    simp at h
  | case5 f c6 tl hnl hnone ih =>
    intro h
    simp only [has7F] at h
    rw [if_neg hnl, hnone] at h
    simp only [rule7F]
    rw [if_neg hnl, hnone, ih h]
  | case6 f c tl hne ih =>
    intro h
    rw [has7F.eq_def] at h
    split at h
    · omega
    · simp_all
    · next a b f2 c62 tl2 heq1 heq2 =>
      rw [List.cons.injEq] at heq2
      exact absurd heq2.2 (fun hx => hne _ _ heq2.1 hx)
    · next a b f2 c2 tl2 hne2 heq1 heq2 =>
      rw [List.cons.injEq] at heq2
      obtain ⟨hc2, ht2⟩ := heq2
      have hf2 : f2 = f := Nat.succ_injective heq1.symm
      rw [← ht2, hf2] at h
      rw [rule7F.eq_def]
      split
      · omega
      · simp_all
      · next a2 b2 f3 c63 tl3 heq3 heq4 =>
        rw [List.cons.injEq] at heq4
        exact absurd heq4.2 (fun hx => hne _ _ heq4.1 hx)
      · next a2 b2 f3 c3 tl3 hne3 heq3 heq4 =>
        rw [List.cons.injEq] at heq4
        obtain ⟨hc3, ht3⟩ := heq4
        have hf3 : f3 = f := Nat.succ_injective heq3.symm
        rw [hf3, ← ht3, ih h, ← hc3]

/-- C8: the text normalizer is total and pure, and each of the seven
substitution rules is a no-op when its pattern does not match anywhere
in the input (amended: the output is *not* trailing/leading-trimmed, see
the counterexample `normalize_not_trimmed`). -/
theorem normalizer_rules_noop (cs : Str) :
    (hasDigit cs = false → ruleDigits cs = cs) ∧
    (hasQM cs = false → ruleQM cs = cs) ∧
    (hasNl cs = false → ruleNl cs = cs) ∧
    (hasSp2 cs = false → ruleSp cs = cs) ∧
    (hasUU cs = false → ruleUU cs = cs) ∧
    (has6 cs = false → rule6 cs = cs) ∧
    (has7 cs = false → rule7 cs = cs) :=
  ⟨ruleDigits_noop, ruleQM_noop, ruleNl_noop, ruleSp_noop, ruleUU_noop,
   fun h => rule6F_noop cs.length cs h, fun h => rule7F_noop cs.length cs h⟩

theorem normalizer_rules_noop_witness :
    hasDigit ('a' :: 'b' :: []) = false ∧ ruleDigits ('a' :: 'b' :: []) = ('a' :: 'b' :: []) ∧
    has6 ('a' :: 'b' :: []) = false ∧ rule6 ('a' :: 'b' :: []) = ('a' :: 'b' :: []) :=
  ⟨by decide, (normalizer_rules_noop ('a' :: 'b' :: [])).1 (by decide),
   by decide, (normalizer_rules_noop ('a' :: 'b' :: [])).2.2.2.2.2.1 (by decide)⟩

/-- C8 counterexample: the normalizer does not trim its output — on the
already-clean input `"a "` every rule is a no-op and the trailing space
survives, so the spec's "output is a single trimmed string" is false. -/
theorem normalize_not_trimmed :
    normalize ('a' :: ' ' :: []) = ('a' :: ' ' :: []) ∧
    rstrip ('a' :: ' ' :: []) ≠ ('a' :: ' ' :: []) := by decide

/-- C3 (amended): on text with no `_..._` span (fewer than two
underscores) `extractAttribution` returns the input *exactly* unchanged
(no trailing-whitespace trimming) with the attribution absent. -/
theorem extractAttribution_no_span (T : Tables) (cs : Str) (h : cs.count '_' ≤ 1) :
    extractAttribution T cs = (cs, none) := by
  simp [extractAttribution, spanFind_none_of_few h]

theorem extractAttribution_no_span_witness :
    (('a' :: 'b' :: []) : Str).count '_' ≤ 1 ∧
    extractAttribution noTables ('a' :: 'b' :: []) = (('a' :: 'b' :: []), none) :=
  ⟨by decide, extractAttribution_no_span noTables ('a' :: 'b' :: []) (by decide)⟩

/-- C3 counterexample: the claim says the no-span result is the input
trailing-trimmed; on `"a "` the code returns `"a "` itself, which is not
trailing-trimmed, so the cleaned text differs from the claimed
`rstrip` value. -/
theorem extractAttribution_no_span_not_trimmed :
    extractAttribution noTables ('a' :: ' ' :: []) = (('a' :: ' ' :: []), none) ∧
    ('a' :: ' ' :: []) ≠ rstrip ('a' :: ' ' :: []) := by decide

/-- C2 (amended): for a non-Greek entry whose extracted translation is
empty, the origin/source resolution rules ARE still applied whenever
attribution tokens are present; only the default-to-Latin fallback is
conditional on a translation, so an entry whose attribution matches no
rule keeps origin `UNK`, and an entry with no attribution gets
`srcInfo = None`. -/
theorem resolution_runs_without_translation (T : Tables) (clean : Str) (si : Option (List Str))
    (hg : greekFind clean = none)
    (ht : rstrip (truncIE ((splitOnChar '=' clean).getLastD [])) = []) :
    parseCleaned T clean si = .ok
      ⟨rstrip (joinWith (' ' :: []) (everyOther ((splitOnChar '=' clean).filter (fun c => c ≠ [])))), [],
       (match si with
        | some (t :: ts) => ((resolveAttribution T t ts).map Prod.fst).getD unkStr
        | _ => unkStr),
       (match si with
        | some (t :: ts) =>
          (match resolveAttribution T t ts with
           | some (_, s) => SrcInfo.str s
           | none => SrcInfo.str (refactor (t :: ts)))
        | _ => SrcInfo.nil)⟩ := by
  simp only [parseCleaned, hg]
  rw [ht]
  simp only [ne_eq, not_true_eq_false, false_and, if_false, List.isEmpty_nil, if_true]
  rcases si with _ | ⟨_ | ⟨t, ts⟩⟩
  · simp
  · simp
  · cases hres : resolveAttribution T t ts with
    | none => simp [hres]
    | some p => obtain ⟨lang, s⟩ := p; simp [hres]

theorem resolution_runs_without_translation_witness :
    greekFind ('=' :: 'V' :: '.' :: '=' :: []) = none ∧
    rstrip (truncIE ((splitOnChar '=' ('=' :: 'V' :: '.' :: '=' :: [])).getLastD [])) = [] ∧
    parseCleaned noTables ('=' :: 'V' :: '.' :: '=' :: []) (some [('L' :: [])]) =
      .ok ⟨('V' :: '.' :: []), [], latinStr, .str ('L' :: 'a' :: ['w'])⟩ :=
  ⟨by decide, by decide,
   (resolution_runs_without_translation noTables ('=' :: 'V' :: '.' :: '=' :: [])
      (some [('L' :: [])]) (by decide) (by decide)).trans (by decide)⟩

/-- C2 counterexample: the entry `"=Vera causa.= _L._"` has an empty
translation, yet its attribution `["L"]` is resolved by the law-maxim
rule: the returned origin is `Latin`, not the unresolved `UNK` the claim
demands for translation-less entries. -/
theorem resolution_without_translation_cex :
    processEntry noTables
      ('=' :: 'V' :: 'e' :: 'r' :: 'a' :: ' ' :: 'c' :: 'a' :: 'u' :: 's' :: 'a' :: '.' :: '=' :: ' ' :: '_' :: 'L' :: '.' :: '_' :: []) =
      .ok ⟨('V' :: 'e' :: 'r' :: 'a' :: ' ' :: 'c' :: 'a' :: 'u' :: 's' :: 'a' :: '.' :: []), [],
           latinStr, .str ('L' :: 'a' :: ['w'])⟩ ∧
    latinStr ≠ unkStr := by decide

/-- C1 counterexample: a corpus whose single (hence final) entry is
malformed — translation `"z"` lacks the em-dash marker — makes
`process_Wood` raise instead of skipping: the run aborts with the
per-entry error instead of catching it. -/
theorem processWood_aborts_on_final_entry :
    processWood noTables [('x' :: '=' :: 'y' :: '=' :: 'z' :: '\n' :: [])] =
      .error .formatInvariant := by decide

theorem concatL_cons (x : Str) (xs : List Str) : concatL (x :: xs) = x ++ concatL xs := by
  simp only [concatL, List.foldr_cons]

theorem concatL_foldr (lst : List Str) (b : Str) :
    lst.foldr (· ++ ·) b = concatL lst ++ b := by
  induction lst with
  | nil => simp [concatL]
  | cons x xs ih =>
    simp only [List.foldr_cons]
    rw [ih, concatL_cons, List.append_assoc]

theorem concatL_append_one (lst : List Str) (line : Str) :
    concatL (lst ++ [line]) = concatL lst ++ line := by
  have h1 : concatL (lst ++ [line]) = lst.foldr (· ++ ·) (concatL [line]) := by
    simp only [concatL, List.foldr_append]
  rw [h1, concatL_foldr]
  simp [concatL]

theorem entriesOf_ne_nil (lines : List Str) : entriesOf lines ≠ [] := by
  induction lines with
  | nil => simp [entriesOf]
  | cons line rest ih =>
    simp only [entriesOf]
    by_cases h : line = ('\n' :: [])
    · rw [if_pos h]; simp
    · rw [if_neg h]
      cases hE : entriesOf rest with
      | nil => simp
      | cons e es => simp

theorem processWoodGo_spec (T : Tables) :
    ∀ (rest : List Str) (acc : List Rec) (lst : List Str),
    processWoodGo T acc lst rest =
      (processOne T (((concatL lst ++ (entriesOf rest).headD []) :: (entriesOf rest).tail).getLastD [])).map
        (fun r => acc ++
          (((concatL lst ++ (entriesOf rest).headD []) :: (entriesOf rest).tail).dropLast.filterMap
            (fun e => (processOne T e).toOption)) ++ [r]) := by
  intro rest
  induction rest with
  | nil =>
    intro acc lst
    rw [processWoodGo]
    cases h : processOne T (concatL lst) with
    | ok r => simp [entriesOf, Except.map, h]
    | error e => simp [entriesOf, Except.map, h]
  | cons line rest ih =>
    intro acc lst
    obtain ⟨e, es, hE⟩ : ∃ e es, entriesOf rest = e :: es := by
      cases h : entriesOf rest with
      | nil => exact absurd h (entriesOf_ne_nil rest)
      | cons e es => exact ⟨e, es, rfl⟩
    by_cases hb : line = ('\n' :: [])
    · have hEL : entriesOf (line :: rest) = [] :: e :: es := by
        simp only [entriesOf, if_pos hb, hE]
      rw [processWoodGo, if_pos hb, hEL]
      cases h : processOne T (concatL lst) with
      | ok r =>
        dsimp only
        rw [ih (acc ++ [r]) [], hE]
        have hc : concatL ([] : List Str) = [] := rfl
        simp only [hc, List.nil_append, List.headD_cons, List.tail_cons, List.append_nil,
          List.dropLast_cons₂, List.filterMap_cons, h, Except.toOption,
          List.getLastD_eq_getLast?, List.getLast?_cons_cons]
        cases h2 : processOne T ((e :: es).getLast?.getD []) with
        | ok r2 => simp [Except.map, h2]
        | error e2 => simp [Except.map, h2]
      | error err =>
        dsimp only
        rw [ih acc [], hE]
        have hc : concatL ([] : List Str) = [] := rfl
        simp only [hc, List.nil_append, List.headD_cons, List.tail_cons, List.append_nil,
          List.dropLast_cons₂, List.filterMap_cons, h, Except.toOption,
          List.getLastD_eq_getLast?, List.getLast?_cons_cons]
    · have hEL : entriesOf (line :: rest) = (line ++ e) :: es := by
        simp only [entriesOf, if_neg hb, hE]
      rw [processWoodGo, if_neg hb, ih acc (lst ++ [line]), hE, hEL]
      simp only [List.headD_cons, List.tail_cons, concatL_append_one, List.append_assoc]

/-- C1 (amended): the corpus driver catches a per-entry error
(`FormatInvariantViolation`/`StructuralParseFailure`) for every
blank-line-terminated entry — such an entry is skipped and the rest of
the corpus is still processed — but the final entry (the one with no
trailing blank line) is parsed outside the handler, so a per-entry
error there propagates and aborts the run. -/
theorem processWood_catches_nonfinal (T : Tables) (lines : List Str) :
    processWood T lines =
      (processOne T ((entriesOf lines).getLastD [])).map
        (fun r => ((entriesOf lines).dropLast.filterMap (fun e => (processOne T e).toOption)) ++ [r]) := by
  rw [processWood, processWoodGo_spec]
  obtain ⟨e, es, hE⟩ : ∃ e es, entriesOf lines = e :: es := by
    cases h : entriesOf lines with
    | nil => exact absurd h (entriesOf_ne_nil lines)
    | cons e es => exact ⟨e, es, rfl⟩
  rw [hE]
  have hc : concatL ([] : List Str) = [] := rfl
  simp only [hc, List.nil_append, List.headD_cons, List.tail_cons]

theorem takeUnd_isPre (u v : Str) (hu : '_' ∉ u) (hnl : '\n' ∉ u) :
    takeUnd (u ++ '_' :: v) = some (u ++ ('_' :: []), v) := by
  induction u with
  | nil => simp [takeUnd]
  | cons c u' ih =>
    have hc : ¬ c = '_' := by intro h; exact hu (by simp [h])
    have hn : ¬ c = '\n' := by intro h; exact hnl (by simp [h])
    have hu' : '_' ∉ u' := fun h => hu (List.mem_cons_of_mem c h)
    have hnl' : '\n' ∉ u' := fun h => hnl (List.mem_cons_of_mem c h)
    rw [List.cons_append, takeUnd.eq_def]
    split
    · next heq => simp at heq
    · next heq => rw [List.cons.injEq] at heq; exact absurd heq.1 hc
    · next heq => rw [List.cons.injEq] at heq; exact absurd heq.1 hn
    · next c2 tl2 heq =>
      rw [List.cons.injEq] at heq
      obtain ⟨h1, h2⟩ := heq
      rw [← h2, ih hu' hnl', ← h1]
      simp

theorem mem_first_split {a : Char} : ∀ {cs : Str}, a ∈ cs →
    ∃ u v, cs = u ++ a :: v ∧ a ∉ u := by
  intro cs h
  induction cs with
  | nil => simp at h
  | cons c tl ih =>
    by_cases hc : c = a
    · exact ⟨[], tl, by rw [hc]; rfl, by simp⟩
    · have htl : a ∈ tl := by
        rcases List.mem_cons.mp h with h1 | h1
        · exact absurd h1.symm hc
        · exact h1
      obtain ⟨u, v, he, hu⟩ := ih htl
      refine ⟨c :: u, v, by rw [he]; rfl, ?_⟩
      intro hmem
      rcases List.mem_cons.mp hmem with h1 | h1
      · exact hc h1.symm
      · exact hu h1

theorem count_two_split {cs : Str} (h : cs.count '_' = 2) :
    ∃ u m k, cs = u ++ '_' :: (m ++ '_' :: k) ∧ '_' ∉ u ∧ '_' ∉ m ∧ '_' ∉ k := by
  have hmem : '_' ∈ cs := by
    by_contra hx
    rw [List.count_eq_zero_of_not_mem hx] at h
    omega
  obtain ⟨u, v, he, hu⟩ := mem_first_split hmem
  have hcv : v.count '_' = 1 := by
    have := h
    rw [he, List.count_append, List.count_cons_self, List.count_eq_zero_of_not_mem hu] at this
    omega
  have hmemv : '_' ∈ v := by
    by_contra hx
    rw [List.count_eq_zero_of_not_mem hx] at hcv
    omega
  obtain ⟨m, k, hev, hm⟩ := mem_first_split hmemv
  have hk : '_' ∉ k := by
    intro hx
    have : 2 ≤ v.count '_' := by
      rw [hev, List.count_append, List.count_cons_self]
      have : 1 ≤ k.count '_' := List.one_le_count_iff.mpr hx
      omega
    omega
  exact ⟨u, m, k, by rw [he, hev], hu, hm, hk⟩

theorem spanFind_decomp (u m k : Str) (hm : '_' ∉ m) (hk : '_' ∉ k)
    (hnlm : '\n' ∉ m) (hnlk : '\n' ∉ k) :
    spanFind (u ++ '_' :: (m ++ '_' :: k)) = some ('_' :: (m ++ '_' :: k)) := by
  have hrev : (u ++ '_' :: (m ++ '_' :: k)).reverse =
      k.reverse ++ '_' :: (m.reverse ++ '_' :: u.reverse) := by
    simp [List.reverse_append, List.reverse_cons, List.append_assoc]
  rw [spanFind, hrev]
  rw [takeUnd_isPre k.reverse _ (by simpa using hk) (by simpa using hnlk)]
  dsimp only
  rw [takeUnd_isPre m.reverse _ (by simpa using hm) (by simpa using hnlm)]
  simp [List.reverse_append, List.reverse_cons]

theorem delAllF_nil (pat : Str) (f : Nat) : delAllF pat f [] = [] := by
  cases f <;> rfl

theorem delAll_tail_occurrence (w : Str) :
    ∀ (u : Str) (f : Nat), u.length + 1 ≤ f → '_' ∉ u →
    delAllF ('_' :: w) f (u ++ '_' :: w) = u := by
  intro u
  induction u with
  | nil =>
    intro f hf hu
    obtain ⟨g, rfl⟩ : ∃ g, f = g + 1 := ⟨f - 1, by omega⟩
    rw [List.nil_append, delAllF]
    have hpre : ('_' :: w).isPrefixOf ('_' :: w) = true := by
      simp [List.isPrefixOf_iff_prefix]
    simp [hpre, List.drop_length, delAllF_nil]
  | cons c u' ih =>
    intro f hf hu
    obtain ⟨g, rfl⟩ : ∃ g, f = g + 1 := ⟨f - 1, by omega⟩
    have hc : ¬ c = '_' := by intro h; exact hu (by simp [h])
    rw [List.cons_append, delAllF]
    have hpre : ('_' :: w).isPrefixOf (c :: (u' ++ '_' :: w)) = false := by
      simp [List.isPrefixOf]
      intro h
      exact absurd h.symm hc
    simp only [hpre, Bool.and_false, if_false]
    rw [ih g (by simp at hf ⊢; omega) (fun h => hu (List.mem_cons_of_mem c h))]
    simp

/-- C4 (amended): on text whose only `_..._` span is formed by its two
underscores, the candidate attribution substring is the *whole suffix*
starting at the first underscore — the span plus any text after the
closing marker.  That entire suffix is removed from the cleaned text
(which is then trailing-trimmed), and the suffix (right-trimmed, then
truncated at the comma/apostrophe/trigger-word conditions) provides the
ordered attribution tokens, with the Shakespeare-alias collapse
applied. -/
theorem extractAttribution_single_span (T : Tables) (u m k : Str)
    (hu : '_' ∉ u) (hm : '_' ∉ m) (hk : '_' ∉ k)
    (hnlm : '\n' ∉ m) (hnlk : '\n' ∉ k) :
    extractAttribution T (u ++ '_' :: (m ++ '_' :: k)) =
      (rstrip u,
       some (aliasCollapse T (tokenize (truncAll (rstrip ('_' :: (m ++ '_' :: k))))))) := by
  rw [extractAttribution, spanFind_decomp u m k hm hk hnlm hnlk]
  have hdel : delAll ('_' :: (m ++ '_' :: k)) (u ++ '_' :: (m ++ '_' :: k)) = u := by
    rw [delAll]
    exact delAll_tail_occurrence (m ++ '_' :: k) u _ (by simp) hu
  dsimp only
  rw [hdel]

theorem extractAttribution_single_span_witness :
    extractAttribution noTables ('a' :: ' ' :: '_' :: 'B' :: '.' :: '_' :: []) =
      (('a' :: []), some [('B' :: [])]) :=
  (extractAttribution_single_span noTables ('a' :: ' ' :: []) ('B' :: '.' :: []) []
    (by decide) (by decide) (by decide) (by decide) (by decide)).trans (by decide)

/-- C4 counterexample: on `"a _B._ c"` (exactly one `_..._` span,
followed by the trailing text `" c"`), the code does not remove just the
span `"_B._"` and recover tokens `["B"]` — it removes the whole suffix
`"_B._ c"`, cleans the text to `"a"` (not `"a  c"`), and the trailing
`"c"` becomes an extra attribution token. -/
theorem extractAttribution_span_takes_suffix :
    extractAttribution noTables
      ('a' :: ' ' :: '_' :: 'B' :: '.' :: '_' :: ' ' :: 'c' :: []) =
      (('a' :: []), some [('B' :: []), ('c' :: [])]) ∧
    ((('a' :: []) : Str), some [(('B' :: []) : Str), ('c' :: [])]) ≠
      (('a' :: ' ' :: ' ' :: 'c' :: []), some [('B' :: [])]) := by decide

theorem truncChar_takeWhile (t : Char) (cs : Str) :
    truncChar t cs = cs.takeWhile (fun c => !(c == t)) := by
  induction cs with
  | nil => rfl
  | cons c tl ih =>
    rw [truncChar, List.takeWhile_cons]
    by_cases hc : c = t
    · simp [hc]
    · have : (c == t) = false := by simpa using hc
      simp [this, ih]

theorem truncCharPair_takeWhile (cs : Str) :
    truncChar apos (truncChar ',' cs) =
      cs.takeWhile (fun c => !(c == ',') && !(c == apos)) := by
  induction cs with
  | nil => rfl
  | cons c tl ih =>
    by_cases hc : c = ','
    · simp [truncChar, hc, List.takeWhile_cons]
    · have hcb : (c == ',') = false := by simpa using hc
      by_cases ha : c = apos
      · simp [truncChar, hcb, ha, List.takeWhile_cons]
      · have hab : (c == apos) = false := by simpa using ha
        simp [truncChar, hcb, hab, List.takeWhile_cons, ih]

theorem truncWord_isPre (w : Str) : ∀ (p : Option Char) (cs : Str),
    (truncWord w p cs) <+: cs := by
  intro p cs
  induction cs generalizing p with
  | nil => simp [truncWord]
  | cons c tl ih =>
    rw [truncWord]
    split
    · exact List.nil_prefix
    · obtain ⟨t, ht⟩ := ih (some c)
      exact ⟨t, by rw [List.cons_append, ht]⟩

theorem foldl_truncWord_isPre (ws : List Str) : ∀ (s : Str),
    (ws.foldl (fun s w => truncWord w none s) s) <+: s := by
  induction ws with
  | nil => intro s; simp
  | cons w ws ih =>
    intro s
    rw [List.foldl_cons]
    exact (ih (truncWord w none s)).trans (truncWord_isPre w none s)

theorem splitOnChar_ne_nil (sep : Char) (l : Str) : splitOnChar sep l ≠ [] := by
  induction l with
  | nil => simp [splitOnChar]
  | cons x tl ih =>
    rw [splitOnChar]
    by_cases hx : (x == sep) = true
    · simp [hx]
    · simp only [hx, Bool.false_eq_true, if_false]
      cases hS : splitOnChar sep tl with
      | nil => simp
      | cons f fs => simp

theorem splitOnChar_mem (sep : Char) : ∀ (l : Str) (fr : Str),
    fr ∈ splitOnChar sep l → ∀ c ∈ fr, c ∈ l := by
  intro l
  induction l with
  | nil =>
    intro fr hfr c hc
    simp [splitOnChar] at hfr
    subst hfr
    simp at hc
  | cons x tl ih =>
    intro fr hfr c hc
    rw [splitOnChar] at hfr
    by_cases hx : x = sep
    · have hxb : (x == sep) = true := by simpa using hx
      rw [hxb] at hfr
      simp only [if_true, List.mem_cons] at hfr
      rcases hfr with h1 | h1
      · subst h1; simp at hc
      · exact List.mem_cons_of_mem x (ih fr h1 c hc)
    · have hxb : (x == sep) = false := by simpa using hx
      rw [hxb] at hfr
      simp only [Bool.false_eq_true, if_false] at hfr
      cases hS : splitOnChar sep tl with
      | nil => exact absurd hS (splitOnChar_ne_nil sep tl)
      | cons f fs =>
        rw [hS] at hfr
        rcases List.mem_cons.mp hfr with h1 | h1
        · subst h1
          rcases List.mem_cons.mp hc with h2 | h2
          · simp [h2]
          · exact List.mem_cons_of_mem x (ih f (hS ▸ List.mem_cons_self f fs) c h2)
        · exact List.mem_cons_of_mem x (ih fr (hS ▸ List.mem_cons_of_mem f h1) c hc)


theorem mem_of_mem_rstrip {c : Char} {l : Str} (h : c ∈ rstrip l) : c ∈ l := by
  rw [rstrip] at h
  rw [List.mem_reverse] at h
  have := (List.dropWhile_sublist (p := wsp) (l := l.reverse)).subset h
  rwa [List.mem_reverse] at this

theorem mem_of_mem_strip {c : Char} {l : Str} (h : c ∈ strip l) : c ∈ l := by
  rw [strip, lstrip] at h
  exact mem_of_mem_rstrip ((List.dropWhile_sublist (p := wsp) (l := rstrip l)).subset h)

theorem mem_of_mem_tokenize {tok : Str} {s : Str} (htok : tok ∈ tokenize s)
    {c : Char} (hc : c ∈ tok) : c ∈ s := by
  rw [tokenize] at htok
  have h1 := List.mem_of_mem_filter htok
  obtain ⟨fr, hfr, hstrip⟩ := List.mem_map.mp h1
  subst hstrip
  have h2 : c ∈ fr := mem_of_mem_strip hc
  have h3 := splitOnChar_mem '.' _ fr hfr c h2
  exact List.mem_of_mem_filter h3

/-- C10: the extracted attribution substring is also truncated at the
first comma and at the first apostrophe — everything from that character
to the end is discarded — before the trigger-word truncations and the
split into tokens; consequently no attribution token contains a comma
or an apostrophe (in particular, no token contains text that followed
one in the raw span). -/
theorem truncAll_comma_apostrophe (cs : Str) :
    truncAll cs = triggerWords.foldl (fun s w => truncWord w none s)
      (cs.takeWhile (fun c => !(c == ',') && !(c == apos))) ∧
    ∀ tok ∈ tokenize (truncAll cs), (',' ∉ tok ∧ apos ∉ tok) := by
  have h1 : truncAll cs = triggerWords.foldl (fun s w => truncWord w none s)
      (cs.takeWhile (fun c => !(c == ',') && !(c == apos))) := by
    rw [truncAll, truncCharPair_takeWhile]
  refine ⟨h1, ?_⟩
  intro tok htok
  have key : ∀ ch : Char, ch ∈ tok → (!(ch == ',') && !(ch == apos)) = true := by
    intro ch hch
    have h2 : ch ∈ truncAll cs := mem_of_mem_tokenize htok hch
    rw [h1] at h2
    have h3 := (foldl_truncWord_isPre triggerWords
      (cs.takeWhile (fun c => !(c == ',') && !(c == apos)))).subset h2
    exact List.mem_takeWhile_imp (p := fun c => !(c == ',') && !(c == apos)) (l := cs) h3
  constructor
  · intro hmem
    have := key ',' hmem
    simp at this
  · intro hmem
    have := key apos hmem
    simp at this

theorem truncAll_comma_apostrophe_witness :
    (('A' :: []) : Str) ∈ tokenize (truncAll ('A' :: '.' :: ' ' :: 'B' :: ',' :: ' ' :: 'C' :: [])) ∧
    (',' ∉ (('A' :: []) : Str) ∧ apos ∉ (('A' :: []) : Str)) :=
  ⟨by decide, (truncAll_comma_apostrophe ('A' :: '.' :: ' ' :: 'B' :: ',' :: ' ' :: 'C' :: [])).2
    ('A' :: []) (by decide)⟩

theorem everyOther_enumFrom : ∀ (l : List Str), ∀ (n : Nat), n % 2 = 0 →
    (((l.enumFrom n).filter (fun p => p.1 % 2 = 0)).map Prod.snd) = everyOther l := by
  intro l
  induction l using everyOther.induct with
  | case1 => intro n hn; simp [everyOther]
  | case2 x =>
    intro n hn
    simp only [List.enumFrom, List.filter, everyOther]
    simp [List.filter_cons, hn]
  | case3 x y tl ih =>
    intro n hn
    have hn1 : (n + 1) % 2 ≠ 0 := by omega
    have hn2 : (n + 2) % 2 = 0 := by omega
    simp only [List.enumFrom, List.filter_cons]
    have e1 : (decide ((n, x).1 % 2 = 0)) = true := by simp [hn]
    have e2 : (decide ((n + 1, y).1 % 2 = 0)) = false := by simp [hn1]
    simp only [e1, e2, if_true, Bool.false_eq_true, if_false, List.map_cons, everyOther]
    have hadd : n + 1 + 1 = n + 2 := by omega
    rw [hadd, ih (n + 2) hn2]

/-- C6: for a non-Greek cleaned text, the original is the space-joined
concatenation of the fragments at even indices of the `=`-split with
empty fragments discarded; the translation is the last fragment of the
unfiltered split with the trailing `, _i.e._ ...` clarification
stripped (and right-trimmed); a non-empty translation that does not
start with the em-dash marker `--` is a reportable parse error, and
otherwise the marker is stripped. -/
theorem default_form_split (T : Tables) (clean : Str) (si : Option (List Str))
    (hg : greekFind clean = none) :
    (parseCleaned T clean si).map (fun r => (r.original, r.translation)) =
      (let frags := splitOnChar '=' clean
       let t0 := rstrip (truncIE (frags.getLastD []))
       if t0 ≠ [] && t0.take 2 ≠ emdash then Except.error PErr.formatInvariant
       else Except.ok
         (rstrip (joinWith (' ' :: [])
            ((((frags.filter (fun c => c ≠ [])).enum.filter (fun p => p.1 % 2 = 0)).map Prod.snd))),
          if t0.isEmpty then t0 else t0.drop 2)) := by
  rw [parseCleaned, hg]
  dsimp only
  simp only [List.enum]
  rw [everyOther_enumFrom _ 0 (by omega)]
  by_cases hcond : ((rstrip (truncIE ((splitOnChar '=' clean).getLastD [])) ≠ [] &&
      (rstrip (truncIE ((splitOnChar '=' clean).getLastD []))).take 2 ≠ emdash) = true)
  · rw [if_pos hcond, if_pos hcond]
    rfl
  · rw [if_neg hcond, if_neg hcond]
    rcases si with _ | ⟨_ | ⟨t, ts⟩⟩
    · rfl
    · rfl
    · cases hres : resolveAttribution T t ts with
      | none => simp [hres, Except.map]
      | some p => obtain ⟨lang, s⟩ := p; simp [hres, Except.map]

theorem default_form_split_witness :
    greekFind ('x' :: '=' :: '-' :: '-' :: 'y' :: []) = none ∧
    (parseCleaned noTables ('x' :: '=' :: '-' :: '-' :: 'y' :: []) none).map
      (fun r => (r.original, r.translation)) = .ok (('x' :: []), ('y' :: [])) :=
  ⟨by decide,
   (default_form_split noTables ('x' :: '=' :: '-' :: '-' :: 'y' :: []) none (by decide)).trans
     (by decide)⟩

/-- C7: when the abbreviation-expanded join of the attribution tokens is
found in the author→language table, the parsed entry's origin is that
author's language and its source info is the registered abbreviated
citation (or the expanded author name when none is registered) — no
matter what the law-maxim rule or the origin-abbreviation table would
say about the tokens (nothing about them is assumed). -/
theorem author_rule_wins (T : Tables) (clean : Str) (t : Str) (ts : List Str) (lang : Str)
    (hg : greekFind clean = none)
    (hl : T.authLang (refactor (t :: ts)) = some lang)
    (r : PRes) (hok : parseCleaned T clean (some (t :: ts)) = .ok r) :
    r.origin = lang ∧
    r.srcInfo = .str ((T.authAbbrev (refactor (t :: ts))).getD (refactor (t :: ts))) := by
  rw [parseCleaned, hg] at hok
  dsimp only at hok
  simp only [resolveAttribution, hl] at hok
  split at hok
  · simp at hok
  · rw [Except.ok.injEq] at hok
    rw [← hok]
    exact ⟨rfl, rfl⟩

theorem author_rule_wins_witness :
    greekFind ('x' :: '=' :: '-' :: '-' :: 'y' :: []) = none ∧
    sampleTables.authLang (refactor [('J' :: 'o' :: 'h' :: 'n' :: 's' :: 'o' :: ['n'])]) =
      some ('E' :: 'n' :: 'g' :: 'l' :: 'i' :: 's' :: ['h']) ∧
    sampleTables.originAbbrev ('J' :: 'o' :: 'h' :: 'n' :: 's' :: 'o' :: ['n']) =
      some ('F' :: 'r' :: 'e' :: 'n' :: 'c' :: ['h']) ∧
    ((PRes.mk ('x' :: []) ('y' :: []) ('E' :: 'n' :: 'g' :: 'l' :: 'i' :: 's' :: ['h'])
        (.str ('J' :: 'o' :: 'h' :: 'n' :: 's' :: 'o' :: ['n']))).origin =
      ('E' :: 'n' :: 'g' :: 'l' :: 'i' :: 's' :: ['h']) ∧
     (PRes.mk ('x' :: []) ('y' :: []) ('E' :: 'n' :: 'g' :: 'l' :: 'i' :: 's' :: ['h'])
        (.str ('J' :: 'o' :: 'h' :: 'n' :: 's' :: 'o' :: ['n']))).srcInfo =
      .str ((sampleTables.authAbbrev (refactor [('J' :: 'o' :: 'h' :: 'n' :: 's' :: 'o' :: ['n'])])).getD
        (refactor [('J' :: 'o' :: 'h' :: 'n' :: 's' :: 'o' :: ['n'])]))) :=
  ⟨by decide, by decide, by decide,
   author_rule_wins sampleTables ('x' :: '=' :: '-' :: '-' :: 'y' :: [])
     ('J' :: 'o' :: 'h' :: 'n' :: 's' :: 'o' :: ['n']) [] ('E' :: 'n' :: 'g' :: 'l' :: 'i' :: 's' :: ['h'])
     (by decide) (by decide) _ (by decide)⟩

theorem takeBrk_capture (x : Str) (d : Str) (hx : ']' ∉ x) (hnlx : '\n' ∉ x) :
    takeBrk (x ++ ']' :: d) = some x := by
  induction x with
  | nil => simp [takeBrk]
  | cons c x' ih =>
    have hc : ¬ c = ']' := by intro h; exact hx (by simp [h])
    have hn : ¬ c = '\n' := by intro h; exact hnlx (by simp [h])
    have hx' : ']' ∉ x' := fun h => hx (List.mem_cons_of_mem c h)
    have hnlx' : '\n' ∉ x' := fun h => hnlx (List.mem_cons_of_mem c h)
    rw [List.cons_append, takeBrk.eq_def]
    split
    · next heq => simp at heq
    · next heq => rw [List.cons.injEq] at heq; exact absurd heq.1 hc
    · next heq => rw [List.cons.injEq] at heq; exact absurd heq.1 hn
    · next c2 tl2 heq =>
      rw [List.cons.injEq] at heq
      obtain ⟨h1, h2⟩ := heq
      rw [← h2, ih hx' hnlx', ← h1]

theorem greekFind_locate : ∀ (a : Str) (x b : Str) (f : Nat),
    (a ++ greekPat x ++ b).length ≤ f →
    '[' ∉ a → ']' ∉ x → '\n' ∉ x →
    greekFindF f (a ++ greekPat x ++ b) = some x := by
  intro a
  induction a with
  | nil =>
    intro x b f hf ha hx hnlx
    obtain ⟨g, rfl⟩ : ∃ g, f = g + 1 := ⟨f - 1, by simp [greekPat] at hf; omega⟩
    rw [List.nil_append]
    rw [greekPat, List.append_assoc, List.cons_append]
    simp only [List.cons_append, List.nil_append]
    rw [greekFindF]
    rw [takeBrk_capture x b hx hnlx]
  | cons c a' ih =>
    intro x b f hf ha hx hnlx
    obtain ⟨g, rfl⟩ : ∃ g, f = g + 1 := ⟨f - 1, by simp at hf; omega⟩
    have hc : ¬ c = '[' := by intro h; exact ha (by simp [h])
    have ha' : '[' ∉ a' := fun h => ha (List.mem_cons_of_mem c h)
    rw [List.cons_append, List.cons_append, greekFindF.eq_def]
    split
    · omega
    · next heq1 heq2 => simp at heq2
    · next a2 b2 f2 tl2 heq1 heq2 =>
      rw [List.cons.injEq] at heq2
      exact absurd heq2.1 hc
    · next a2 b2 f2 c2 tl2 hne2 heq1 heq2 =>
      rw [List.cons.injEq] at heq2
      obtain ⟨h1, h2⟩ := heq2
      have hf2 : f2 = g := Nat.succ_injective heq1.symm
      rw [hf2, ← h2]
      exact ih x b g (by simp at hf ⊢; omega) ha' hx hnlx

/-- C5: for a cleaned text containing the bracketed span `[Greek: x]`
(first occurrence: no `[` precedes it, and `x` contains neither `]` nor
a newline): the original is `x` and the origin is `Greek`; the
remainder after deleting the span must begin with the em-dash marker
`--` or the entry is a reportable parse error; the translation is the
remainder with the leading `--` stripped and right-trimmed; and a
leading attribution token `Gr` is dropped before the abbreviation
expansion that forms the source info. -/
theorem greek_form (T : Tables) (a x b : Str) (si : Option (List Str))
    (ha : '[' ∉ a) (hx : ']' ∉ x) (hnlx : '\n' ∉ x) :
    parseCleaned T (a ++ greekPat x ++ b) si =
      (let rem := delAll (greekPat x) (a ++ greekPat x ++ b)
       if rem.take 2 = emdash then
         Except.ok ⟨x, rstrip (rem.drop 2), ('G' :: 'r' :: 'e' :: 'e' :: ['k']),
           (match si with
            | some (t :: ts) => SrcInfo.str (refactor (if t = ('G' :: ['r']) then ts else t :: ts))
            | some [] => SrcInfo.toks []
            | none => SrcInfo.nil)⟩
       else Except.error PErr.formatInvariant) := by
  rw [parseCleaned, greekFind]
  rw [greekFind_locate a x b _ (by omega) ha hx hnlx]
  dsimp only
  rcases si with _ | ⟨_ | ⟨t, ts⟩⟩ <;> rfl

theorem greek_form_witness :
    ('[' ∉ ([] : Str)) ∧
    parseCleaned noTables (greekPat ('a' :: 'b' :: []) ++ ('-' :: '-' :: 'c' :: 'd' :: []))
      (some [('G' :: ['r']), ('M' :: [])]) =
      Except.ok ⟨('a' :: 'b' :: []), ('c' :: 'd' :: []), ('G' :: 'r' :: 'e' :: 'e' :: ['k']),
        SrcInfo.str ('M' :: 'a' :: 'x' :: 'i' :: ['m'])⟩ := by
  constructor
  · simp
  · have h := greek_form noTables [] ('a' :: 'b' :: []) ('-' :: '-' :: 'c' :: 'd' :: [])
      (some [('G' :: ['r']), ('M' :: [])]) (by decide) (by decide) (by decide)
    rw [List.nil_append] at h
    exact h.trans (by decide)

theorem wchar_ne_newline {c : Char} (h : wchar c = true) : (c == '\n') = false := by
  by_cases hc : c = '\n'
  · subst hc; exact absurd h (by decide)
  · simpa using hc

theorem bdry_word_word {a b : Char} (ha : wchar a = true) (hb : wchar b = true) :
    bdry (some a) (some b) = false := by
  simp [bdry, wopt, ha, hb]

theorem wchar_of_bdry_false {a b : Char} (ha : wchar a = true)
    (h : bdry (some a) (some b) = false) : wchar b = true := by
  simp [bdry, wopt, ha] at h
  exact h

theorem prMatch_none_head {p : Option Char} {c : Char} {tl : Str} (h : ¬ c = 'P') :
    prMatch p (c :: tl) = none := by
  rw [prMatch.eq_def]
  split
  · next heq => rw [List.cons.injEq] at heq; exact absurd heq.1 h
  · rfl

theorem prMatch_none_second {p : Option Char} {d : Char} {rest : Str} (h : ¬ d = 'r') :
    prMatch p ('P' :: d :: rest) = none := by
  rw [prMatch.eq_def]
  split
  · next heq =>
    rw [List.cons.injEq] at heq
    obtain ⟨h1, h2⟩ := heq
    rw [List.cons.injEq] at h2
    exact absurd h2.1 h
  · rfl

theorem prMatch_none_bdry {p : Option Char} {X : Str} (h : bdry p (some 'P') = false) :
    prMatch p ('P' :: 'r' :: X) = none := by
  simp [prMatch, h]

theorem prMatch_word {a : Char} (ha : wchar a = true) (cs : Str) :
    prMatch (some a) cs = none := by
  rw [prMatch.eq_def]
  split
  · next tl heq =>
    have : bdry (some a) (some 'P') = false := bdry_word_word ha (by decide)
    simp [this]
  · rfl

theorem mMatch_none_head {p : Option Char} {c : Char} {tl : Str} (h : ¬ c = 'M') :
    mMatch p (c :: tl) = none := by
  rw [mMatch.eq_def]
  split
  · next heq => rw [List.cons.injEq] at heq; exact absurd heq.1 h
  · rfl

theorem mMatch_none_bdry {p : Option Char} {X : Str} (h : bdry p (some 'M') = false) :
    mMatch p ('M' :: X) = none := by
  simp [mMatch, h]

theorem mMatch_word {a : Char} (ha : wchar a = true) (cs : Str) :
    mMatch (some a) cs = none := by
  rw [mMatch.eq_def]
  split
  · next tl heq =>
    have : bdry (some a) (some 'M') = false := bdry_word_word ha (by decide)
    simp [this]
  · rfl

theorem prMatch_some_shape {p : Option Char} {cs : Str} {k : Nat} {last : Char}
    (h : prMatch p cs = some (k, last)) :
    (∃ tl, cs = 'P' :: 'r' :: tl) ∧ 1 ≤ k ∧ k ≤ cs.length := by
  rw [prMatch.eq_def] at h
  split at h
  · next a tl =>
    refine ⟨⟨tl, rfl⟩, ?_⟩
    split at h
    · split at h
      · next heq2 =>
        simp only [Option.some.injEq, Prod.mk.injEq] at h
        simp [← h.1]
      · next c3 tl2 =>
        split at h
        · simp only [Option.some.injEq, Prod.mk.injEq] at h
          simp at *
          omega
        · split at h
          · simp only [Option.some.injEq, Prod.mk.injEq] at h
            simp at *
            omega
          · split at h
            · next tl3 =>
              split at h
              · simp only [Option.some.injEq, Prod.mk.injEq] at h
                simp at *
                omega
              · next c5 tl4 =>
                split at h
                · simp only [Option.some.injEq, Prod.mk.injEq] at h
                  simp at *
                  omega
                · split at h
                  · simp only [Option.some.injEq, Prod.mk.injEq] at h
                    simp at *
                    omega
                  · simp at h
            · simp at h
    · simp at h
  · simp at h

theorem mMatch_some_shape {p : Option Char} {cs : Str} {k : Nat} {last : Char}
    (h : mMatch p cs = some (k, last)) :
    (k = 1 ∧ ∃ tl, cs = 'M' :: tl ∧ last = 'M') ∨
    (k = 2 ∧ ∃ tl2, cs = 'M' :: last :: tl2) := by
  rw [mMatch.eq_def] at h
  split at h
  · next a tl =>
    split at h
    · split at h
      · left
        simp only [Option.some.injEq, Prod.mk.injEq] at h
        exact ⟨h.1.symm, [], rfl, h.2.symm⟩
      · next c2 tl2 =>
        split at h
        · right
          simp only [Option.some.injEq, Prod.mk.injEq] at h
          exact ⟨h.1.symm, tl2, by rw [h.2]⟩
        · split at h
          · left
            simp only [Option.some.injEq, Prod.mk.injEq] at h
            exact ⟨h.1.symm, c2 :: tl2, rfl, h.2.symm⟩
          · simp at h
    · simp at h
  · simp at h

theorem mMatch_some_bounds {p : Option Char} {cs : Str} {k : Nat} {last : Char}
    (h : mMatch p cs = some (k, last)) : 1 ≤ k ∧ k ≤ cs.length := by
  rcases mMatch_some_shape h with ⟨hk, tl, hcs, -⟩ | ⟨hk, tl2, hcs⟩ <;> subst hk <;>
    simp [hcs]

theorem subPrF_congr : ∀ (n f g : Nat) (p : Option Char) (cs : Str),
    cs.length ≤ n → cs.length ≤ f → cs.length ≤ g →
    subPrF f p cs = subPrF g p cs := by
  intro n
  induction n with
  | zero =>
    intro f g p cs hn _ _
    have hcs : cs = [] := List.length_eq_zero.mp (Nat.le_zero.mp hn)
    subst hcs
    cases f <;> cases g <;> rfl
  | succ n ih =>
    intro f g p cs hn hf hg
    cases cs with
    | nil => cases f <;> cases g <;> rfl
    | cons c tl =>
      simp only [List.length_cons] at hn hf hg
      obtain ⟨f', rfl⟩ : ∃ f', f = f' + 1 := ⟨f - 1, by omega⟩
      obtain ⟨g', rfl⟩ : ∃ g', g = g' + 1 := ⟨g - 1, by omega⟩
      cases hm : prMatch p (c :: tl) with
      | none =>
        simp only [subPrF, hm]
        rw [ih f' g' (some c) tl (by omega) (by omega) (by omega)]
      | some kl =>
        obtain ⟨k, last⟩ := kl
        obtain ⟨-, hk1, hk2⟩ := prMatch_some_shape hm
        simp only [List.length_cons] at hk2
        simp only [subPrF, hm]
        rw [ih f' g' (some last) ((c :: tl).drop k)
          (by simp; omega) (by simp; omega) (by simp; omega)]

theorem subMF_congr : ∀ (n f g : Nat) (p : Option Char) (cs : Str),
    cs.length ≤ n → cs.length ≤ f → cs.length ≤ g →
    subMF f p cs = subMF g p cs := by
  intro n
  induction n with
  | zero =>
    intro f g p cs hn _ _
    have hcs : cs = [] := List.length_eq_zero.mp (Nat.le_zero.mp hn)
    subst hcs
    cases f <;> cases g <;> rfl
  | succ n ih =>
    intro f g p cs hn hf hg
    cases cs with
    | nil => cases f <;> cases g <;> rfl
    | cons c tl =>
      simp only [List.length_cons] at hn hf hg
      obtain ⟨f', rfl⟩ : ∃ f', f = f' + 1 := ⟨f - 1, by omega⟩
      obtain ⟨g', rfl⟩ : ∃ g', g = g' + 1 := ⟨g - 1, by omega⟩
      cases hm : mMatch p (c :: tl) with
      | none =>
        simp only [subMF, hm]
        rw [ih f' g' (some c) tl (by omega) (by omega) (by omega)]
      | some kl =>
        obtain ⟨k, last⟩ := kl
        obtain ⟨hk1, hk2⟩ := mMatch_some_bounds hm
        simp only [List.length_cons] at hk2
        simp only [subMF, hm]
        rw [ih f' g' (some last) ((c :: tl).drop k)
          (by simp; omega) (by simp; omega) (by simp; omega)]

theorem hasPrF_congr : ∀ (n f g : Nat) (p : Option Char) (cs : Str),
    cs.length ≤ n → cs.length ≤ f → cs.length ≤ g →
    hasPrF f p cs = hasPrF g p cs := by
  intro n
  induction n with
  | zero =>
    intro f g p cs hn _ _
    have hcs : cs = [] := List.length_eq_zero.mp (Nat.le_zero.mp hn)
    subst hcs
    cases f <;> cases g <;> rfl
  | succ n ih =>
    intro f g p cs hn hf hg
    cases cs with
    | nil => cases f <;> cases g <;> rfl
    | cons c tl =>
      simp only [List.length_cons] at hn hf hg
      obtain ⟨f', rfl⟩ : ∃ f', f = f' + 1 := ⟨f - 1, by omega⟩
      obtain ⟨g', rfl⟩ : ∃ g', g = g' + 1 := ⟨g - 1, by omega⟩
      cases hm : prMatch p (c :: tl) with
      | none =>
        simp only [hasPrF, hm]
        exact ih f' g' (some c) tl (by omega) (by omega) (by omega)
      | some kl =>
        simp only [hasPrF, hm]

theorem hasMF_congr : ∀ (n f g : Nat) (p : Option Char) (cs : Str),
    cs.length ≤ n → cs.length ≤ f → cs.length ≤ g →
    hasMF f p cs = hasMF g p cs := by
  intro n
  induction n with
  | zero =>
    intro f g p cs hn _ _
    have hcs : cs = [] := List.length_eq_zero.mp (Nat.le_zero.mp hn)
    subst hcs
    cases f <;> cases g <;> rfl
  | succ n ih =>
    intro f g p cs hn hf hg
    cases cs with
    | nil => cases f <;> cases g <;> rfl
    | cons c tl =>
      simp only [List.length_cons] at hn hf hg
      obtain ⟨f', rfl⟩ : ∃ f', f = f' + 1 := ⟨f - 1, by omega⟩
      obtain ⟨g', rfl⟩ : ∃ g', g = g' + 1 := ⟨g - 1, by omega⟩
      cases hm : mMatch p (c :: tl) with
      | none =>
        simp only [hasMF, hm]
        exact ih f' g' (some c) tl (by omega) (by omega) (by omega)
      | some kl =>
        simp only [hasMF, hm]

theorem subPr_cons_none {p : Option Char} {c : Char} {tl : Str}
    (h : prMatch p (c :: tl) = none) :
    subPr p (c :: tl) = c :: subPr (some c) tl := by
  simp only [subPr, List.length_cons, subPrF, h]

theorem subPr_cons_some {p : Option Char} {c : Char} {tl : Str} {k : Nat} {last : Char}
    (h : prMatch p (c :: tl) = some (k, last)) :
    subPr p (c :: tl) = prov ++ subPr (some last) ((c :: tl).drop k) := by
  obtain ⟨-, hk1, hk2⟩ := prMatch_some_shape h
  simp only [List.length_cons] at hk2
  simp only [subPr, List.length_cons, subPrF, h]
  rw [subPrF_congr (tl.length + 1) tl.length ((c :: tl).drop k).length (some last)
    ((c :: tl).drop k) (by simp <;> omega) (by simp <;> omega) (by simp)]

theorem subM_cons_none {p : Option Char} {c : Char} {tl : Str}
    (h : mMatch p (c :: tl) = none) :
    subM p (c :: tl) = c :: subM (some c) tl := by
  simp only [subM, List.length_cons, subMF, h]

theorem subM_cons_some {p : Option Char} {c : Char} {tl : Str} {k : Nat} {last : Char}
    (h : mMatch p (c :: tl) = some (k, last)) :
    subM p (c :: tl) = maxim ++ subM (some last) ((c :: tl).drop k) := by
  obtain ⟨hk1, hk2⟩ := mMatch_some_bounds h
  simp only [List.length_cons] at hk2
  simp only [subM, List.length_cons, subMF, h]
  rw [subMF_congr (tl.length + 1) tl.length ((c :: tl).drop k).length (some last)
    ((c :: tl).drop k) (by simp <;> omega) (by simp <;> omega) (by simp)]

theorem hasPr_cons_none {p : Option Char} {c : Char} {tl : Str}
    (h : prMatch p (c :: tl) = none) :
    hasPr p (c :: tl) = hasPr (some c) tl := by
  simp only [hasPr, List.length_cons, hasPrF, h]

theorem hasPr_cons_some {p : Option Char} {c : Char} {tl : Str} {x : Nat × Char}
    (h : prMatch p (c :: tl) = some x) :
    hasPr p (c :: tl) = true := by
  simp only [hasPr, List.length_cons, hasPrF, h]

theorem hasM_cons_none {p : Option Char} {c : Char} {tl : Str}
    (h : mMatch p (c :: tl) = none) :
    hasM p (c :: tl) = hasM (some c) tl := by
  simp only [hasM, List.length_cons, hasMF, h]

theorem hasM_cons_some {p : Option Char} {c : Char} {tl : Str} {x : Nat × Char}
    (h : mMatch p (c :: tl) = some x) :
    hasM p (c :: tl) = true := by
  simp only [hasM, List.length_cons, hasMF, h]

theorem subPr_word_step {a : Char} (ha : wchar a = true) (c : Char) (tl : Str) :
    subPr (some a) (c :: tl) = c :: subPr (some c) tl :=
  subPr_cons_none (prMatch_word ha _)

theorem subM_word_step {a : Char} (ha : wchar a = true) (c : Char) (tl : Str) :
    subM (some a) (c :: tl) = c :: subM (some c) tl :=
  subM_cons_none (mMatch_word ha _)

theorem hasPr_none_inv {p : Option Char} {c : Char} {tl : Str}
    (h : hasPr p (c :: tl) = false) :
    prMatch p (c :: tl) = none ∧ hasPr (some c) tl = false := by
  cases hm : prMatch p (c :: tl) with
  | none => exact ⟨rfl, (hasPr_cons_none hm).symm.trans h⟩
  | some x => rw [hasPr_cons_some hm] at h; exact absurd h (by simp)

theorem WL_Pr {w : Char} (hw : wchar w = true) {q : Option Char} {cs : Str}
    (h : hasPr q cs = false) : hasPr (some w) cs = false := by
  cases cs with
  | nil => rfl
  | cons c tl =>
    obtain ⟨-, h2⟩ := hasPr_none_inv h
    rw [hasPr_cons_none (prMatch_word hw _)]
    exact h2

theorem hasM_none_inv {p : Option Char} {c : Char} {tl : Str}
    (h : hasM p (c :: tl) = false) :
    mMatch p (c :: tl) = none ∧ hasM (some c) tl = false := by
  cases hm : mMatch p (c :: tl) with
  | none => exact ⟨rfl, (hasM_cons_none hm).symm.trans h⟩
  | some x => rw [hasM_cons_some hm] at h; exact absurd h (by simp)

theorem WL_M {w : Char} (hw : wchar w = true) {q : Option Char} {cs : Str}
    (h : hasM q cs = false) : hasM (some w) cs = false := by
  cases cs with
  | nil => rfl
  | cons c tl =>
    obtain ⟨-, h2⟩ := hasM_none_inv h
    rw [hasM_cons_none (mMatch_word hw _)]
    exact h2

theorem hasPr_suffix : ∀ (cs : Str) (p : Option Char), hasPr p cs = false →
    ∀ (j : Nat) (last : Char) (tl : Str), cs.drop j = last :: tl →
    hasPr (some last) tl = false := by
  intro cs
  induction cs with
  | nil => intro p _ j last tl hj; simp at hj
  | cons c ctl ih =>
    intro p h j last tl hj
    obtain ⟨-, h2⟩ := hasPr_none_inv h
    cases j with
    | zero =>
      simp only [List.drop_zero, List.cons.injEq] at hj
      obtain ⟨rfl, rfl⟩ := hj
      exact h2
    | succ j' =>
      simp only [List.drop_succ_cons] at hj
      exact ih (some c) h2 j' last tl hj

theorem prMatch_prov (p : Option Char) (Z : Str) :
    prMatch p ('P' :: 'r' :: 'o' :: 'v' :: 'e' :: 'r' :: 'b' :: Z) = none := by
  rw [prMatch.eq_def]
  split
  · next heq =>
    simp only [List.cons.injEq] at heq
    obtain ⟨-, -, h3⟩ := heq
    subst h3
    by_cases hb : bdry p (some 'P') = true
    · have e1 : (!('o' == '\n') && bdry (some 'o') (some 'v')) = false := by decide
      have e2 : bdry (some 'r') (some 'o') = false := by decide
      have e3 : (!('e' == '\n') && bdry (some 'e') (some 'r')) = false := by decide
      have e4 : bdry (some 'v') (some 'e') = false := by decide
      have e5 : bdry (some 'o') (some 'v') = false := by decide
      have e6 : bdry (some 'e') (some 'r') = false := by decide
      simp [hb, e1, e2, e3, e4, e5, e6]
    · simp only [Bool.not_eq_true] at hb
      simp [hb]
  · rfl

theorem mMatch_maxim (p : Option Char) (Z : Str) :
    mMatch p ('M' :: 'a' :: 'x' :: 'i' :: 'm' :: Z) = none := by
  rw [mMatch.eq_def]
  split
  · next heq =>
    simp only [List.cons.injEq] at heq
    obtain ⟨-, h2⟩ := heq
    subst h2
    by_cases hb : bdry p (some 'M') = true
    · have e1 : (!('a' == '\n') && bdry (some 'a') (some 'x')) = false := by decide
      have e2 : bdry (some 'M') (some 'a') = false := by decide
      have e3 : bdry (some 'a') (some 'x') = false := by decide
      simp [hb, e1, e2, e3]
    · simp only [Bool.not_eq_true] at hb
      simp [hb]
  · rfl

theorem hasPr_prov_append (p : Option Char) (Z : Str) :
    hasPr p (prov ++ Z) = hasPr (some 'b') Z := by
  show hasPr p ('P' :: 'r' :: 'o' :: 'v' :: 'e' :: 'r' :: 'b' :: Z) = hasPr (some 'b') Z
  rw [hasPr_cons_none (prMatch_prov p Z)]
  rw [hasPr_cons_none (prMatch_none_head (by decide))]
  rw [hasPr_cons_none (prMatch_none_head (by decide))]
  rw [hasPr_cons_none (prMatch_none_head (by decide))]
  rw [hasPr_cons_none (prMatch_none_head (by decide))]
  rw [hasPr_cons_none (prMatch_none_head (by decide))]
  rw [hasPr_cons_none (prMatch_none_head (by decide))]

theorem hasPr_maxim_append (p : Option Char) (Z : Str) :
    hasPr p (maxim ++ Z) = hasPr (some 'm') Z := by
  show hasPr p ('M' :: 'a' :: 'x' :: 'i' :: 'm' :: Z) = hasPr (some 'm') Z
  rw [hasPr_cons_none (prMatch_none_head (by decide))]
  rw [hasPr_cons_none (prMatch_none_head (by decide))]
  rw [hasPr_cons_none (prMatch_none_head (by decide))]
  rw [hasPr_cons_none (prMatch_none_head (by decide))]
  rw [hasPr_cons_none (prMatch_none_head (by decide))]

theorem hasM_maxim_append (p : Option Char) (Z : Str) :
    hasM p (maxim ++ Z) = hasM (some 'm') Z := by
  show hasM p ('M' :: 'a' :: 'x' :: 'i' :: 'm' :: Z) = hasM (some 'm') Z
  rw [hasM_cons_none (mMatch_maxim p Z)]
  rw [hasM_cons_none (mMatch_none_head (by decide))]
  rw [hasM_cons_none (mMatch_none_head (by decide))]
  rw [hasM_cons_none (mMatch_none_head (by decide))]
  rw [hasM_cons_none (mMatch_none_head (by decide))]

theorem cons_of_bdry_false {c : Char} {tl : Str} (hc : wchar c = true)
    (h : bdry (some c) tl.head? = false) :
    ∃ d tl2, tl = d :: tl2 ∧ wchar d = true := by
  cases tl with
  | nil => exact absurd h (by simp [bdry, wopt, hc])
  | cons d tl2 => exact ⟨d, tl2, rfl, wchar_of_bdry_false hc (by simpa using h)⟩

theorem prMatch_none_inv {p : Option Char} {c3 : Char} {tl3 : Str}
    (hb : bdry p (some 'P') = true)
    (h : prMatch p ('P' :: 'r' :: c3 :: tl3) = none) :
    (!(c3 == '\n') && bdry (some c3) tl3.head?) = false ∧
    bdry (some 'r') (some c3) = false := by
  refine ⟨?_, ?_⟩
  · by_contra hA
    have hA1 : (!(c3 == '\n') && bdry (some c3) tl3.head?) = true := by
      simpa using hA
    simp [prMatch, hb, hA1] at h
  · by_contra hA
    have hA2 : bdry (some 'r') (some c3) = true := by simpa using hA
    by_cases hA1 : (!(c3 == '\n') && bdry (some c3) tl3.head?) = true
    · simp [prMatch, hb, hA1] at h
    · simp only [Bool.not_eq_true] at hA1
      simp [prMatch, hb, hA1, hA2] at h

theorem prMatch_none_inv2 {p : Option Char} {c5 : Char} {tl5 : Str}
    (hb : bdry p (some 'P') = true)
    (h : prMatch p ('P' :: 'r' :: 'o' :: 'v' :: c5 :: tl5) = none) :
    (!(c5 == '\n') && bdry (some c5) tl5.head?) = false ∧
    bdry (some 'v') (some c5) = false := by
  have e1 : bdry (some 'o') (some 'v') = false := by decide
  have e2 : bdry (some 'r') (some 'o') = false := by decide
  refine ⟨?_, ?_⟩
  · by_contra hA
    have hB1 : (!(c5 == '\n') && bdry (some c5) tl5.head?) = true := by
      simpa using hA
    simp [prMatch, hb, e1, e2, hB1] at h
  · by_contra hA
    have hB2 : bdry (some 'v') (some c5) = true := by simpa using hA
    by_cases hB1 : (!(c5 == '\n') && bdry (some c5) tl5.head?) = true
    · simp [prMatch, hb, e1, e2, hB1] at h
    · simp only [Bool.not_eq_true] at hB1
      simp [prMatch, hb, e1, e2, hB1, hB2] at h

theorem mMatch_none_inv {p : Option Char} {c2 : Char} {tl2 : Str}
    (hb : bdry p (some 'M') = true)
    (h : mMatch p ('M' :: c2 :: tl2) = none) :
    (!(c2 == '\n') && bdry (some c2) tl2.head?) = false ∧
    bdry (some 'M') (some c2) = false := by
  refine ⟨?_, ?_⟩
  · by_contra hA
    have hA1 : (!(c2 == '\n') && bdry (some c2) tl2.head?) = true := by
      simpa using hA
    simp [mMatch, hb, hA1] at h
  · by_contra hA
    have hA2 : bdry (some 'M') (some c2) = true := by simpa using hA
    by_cases hA1 : (!(c2 == '\n') && bdry (some c2) tl2.head?) = true
    · simp [mMatch, hb, hA1] at h
    · simp only [Bool.not_eq_true] at hA1
      simp [mMatch, hb, hA1, hA2] at h

theorem prMatch_none_four {p : Option Char} {c3 c4 : Char} {Z : Str}
    (h34 : bdry (some c3) (some c4) = false)
    (hA2 : bdry (some 'r') (some c3) = false)
    (hno : c3 = 'o' → c4 = 'v' → False) :
    prMatch p ('P' :: 'r' :: c3 :: c4 :: Z) = none := by
  by_cases hb : bdry p (some 'P') = true
  · simp only [prMatch, hb, if_true, List.head?_cons, h34, Bool.and_false,
      Bool.false_eq_true, if_false, hA2]
    split
    · next tl3 heq =>
      rw [List.cons.injEq] at heq
      exact (hno rfl heq.1).elim
    · rfl
  · simp only [Bool.not_eq_true] at hb
    simp [prMatch, hb]

theorem prMatch_none_ov {p : Option Char} {c5 c6 : Char} {Z : Str}
    (h56 : bdry (some c5) (some c6) = false)
    (hB2 : bdry (some 'v') (some c5) = false) :
    prMatch p ('P' :: 'r' :: 'o' :: 'v' :: c5 :: c6 :: Z) = none := by
  have e1 : bdry (some 'o') (some 'v') = false := by decide
  have e2 : bdry (some 'r') (some 'o') = false := by decide
  by_cases hb : bdry p (some 'P') = true
  · simp [prMatch, hb, e1, e2, h56, hB2]
  · simp only [Bool.not_eq_true] at hb
    simp [prMatch, hb]

theorem mMatch_none_three {p : Option Char} {c2 c3 : Char} {Z : Str}
    (h23 : bdry (some c2) (some c3) = false)
    (hA2 : bdry (some 'M') (some c2) = false) :
    mMatch p ('M' :: c2 :: c3 :: Z) = none := by
  by_cases hb : bdry p (some 'M') = true
  · simp [mMatch, hb, h23, hA2]
  · simp only [Bool.not_eq_true] at hb
    simp [mMatch, hb]

theorem prMatch_stable (g : Option Char → Str → Str)
    (hg : ∀ (a c : Char) (tl : Str), wchar a = true →
      g (some a) (c :: tl) = c :: g (some c) tl)
    (hgn : ∀ a : Option Char, g a [] = [])
    {p : Option Char} {c : Char} {tl : Str}
    (h : prMatch p (c :: tl) = none) :
    prMatch p (c :: g (some c) tl) = none := by
  by_cases hc : c = 'P'
  case neg => exact prMatch_none_head hc
  subst hc
  cases tl with
  | nil => rw [hgn]; exact h
  | cons d tl1 =>
    by_cases hd : d = 'r'
    case neg =>
      rw [hg 'P' d tl1 (by decide)]
      exact prMatch_none_second hd
    subst hd
    rw [hg 'P' 'r' tl1 (by decide)]
    by_cases hb : bdry p (some 'P') = true
    case neg =>
      simp only [Bool.not_eq_true] at hb
      exact prMatch_none_bdry hb
    cases tl1 with
    | nil => rw [hgn]; exact h
    | cons c3 tl3 =>
      rw [hg 'r' c3 tl3 (by decide)]
      obtain ⟨hA1, hA2⟩ := prMatch_none_inv hb h
      have hw3 : wchar c3 = true := wchar_of_bdry_false (by decide) hA2
      have hnl3 : (c3 == '\n') = false := wchar_ne_newline hw3
      have hbd3 : bdry (some c3) tl3.head? = false := by
        rw [hnl3] at hA1; simpa using hA1
      obtain ⟨c4, tl4, rfl, hw4⟩ := cons_of_bdry_false hw3 hbd3
      rw [hg c3 c4 tl4 hw3]
      have h34 : bdry (some c3) (some c4) = false := bdry_word_word hw3 hw4
      by_cases hov : c3 = 'o' ∧ c4 = 'v'
      case neg =>
        exact prMatch_none_four h34 hA2 (fun h3 h4 => hov ⟨h3, h4⟩)
      obtain ⟨rfl, rfl⟩ := hov
      cases tl4 with
      | nil => rw [hgn]; exact h
      | cons c5 tl5 =>
        obtain ⟨hB1, hB2⟩ := prMatch_none_inv2 hb h
        have hw5 : wchar c5 = true := wchar_of_bdry_false (by decide) hB2
        have hnl5 : (c5 == '\n') = false := wchar_ne_newline hw5
        have hbd5 : bdry (some c5) tl5.head? = false := by
          rw [hnl5] at hB1; simpa using hB1
        obtain ⟨c6, tl6, rfl, hw6⟩ := cons_of_bdry_false hw5 hbd5
        rw [hg 'v' c5 (c6 :: tl6) (by decide), hg c5 c6 tl6 hw5]
        exact prMatch_none_ov (bdry_word_word hw5 hw6) hB2

theorem mMatch_stable (g : Option Char → Str → Str)
    (hg : ∀ (a c : Char) (tl : Str), wchar a = true →
      g (some a) (c :: tl) = c :: g (some c) tl)
    (hgn : ∀ a : Option Char, g a [] = [])
    {p : Option Char} {c : Char} {tl : Str}
    (h : mMatch p (c :: tl) = none) :
    mMatch p (c :: g (some c) tl) = none := by
  by_cases hc : c = 'M'
  case neg => exact mMatch_none_head hc
  subst hc
  cases tl with
  | nil => rw [hgn]; exact h
  | cons c2 tl2 =>
    rw [hg 'M' c2 tl2 (by decide)]
    by_cases hb : bdry p (some 'M') = true
    case neg =>
      simp only [Bool.not_eq_true] at hb
      exact mMatch_none_bdry hb
    obtain ⟨hA1, hA2⟩ := mMatch_none_inv hb h
    have hw2 : wchar c2 = true := wchar_of_bdry_false (by decide) hA2
    have hnl2 : (c2 == '\n') = false := wchar_ne_newline hw2
    have hbd2 : bdry (some c2) tl2.head? = false := by
      rw [hnl2] at hA1; simpa using hA1
    obtain ⟨c3, tl3, rfl, hw3⟩ := cons_of_bdry_false hw2 hbd2
    rw [hg c2 c3 tl3 hw2]
    exact mMatch_none_three (bdry_word_word hw2 hw3) hA2

theorem noA_id : ∀ (cs : Str) (p : Option Char),
    hasPr p cs = false → subPr p cs = cs := by
  intro cs
  induction cs with
  | nil => intro p _; rfl
  | cons c tl ih =>
    intro p h
    obtain ⟨hm, h2⟩ := hasPr_none_inv h
    rw [subPr_cons_none hm, ih (some c) h2]

theorem noM_id : ∀ (cs : Str) (p : Option Char),
    hasM p cs = false → subM p cs = cs := by
  intro cs
  induction cs with
  | nil => intro p _; rfl
  | cons c tl ih =>
    intro p h
    obtain ⟨hm, h2⟩ := hasM_none_inv h
    rw [subM_cons_none hm, ih (some c) h2]

theorem mMatch_last_drop {p : Option Char} {cs : Str} {k : Nat} {last : Char}
    (h : mMatch p cs = some (k, last)) :
    cs.drop (k - 1) = last :: cs.drop k := by
  rcases mMatch_some_shape h with ⟨rfl, tl, rfl, rfl⟩ | ⟨rfl, tl2, rfl⟩
  · simp
  · simp

theorem hasPr_subPr : ∀ (n : Nat) (cs : Str), cs.length ≤ n →
    ∀ p, hasPr p (subPr p cs) = false := by
  intro n
  induction n with
  | zero =>
    intro cs h p
    have hcs : cs = [] := List.length_eq_zero.mp (Nat.le_zero.mp h)
    subst hcs; rfl
  | succ n ih =>
    intro cs h p
    cases cs with
    | nil => rfl
    | cons c tl =>
      simp only [List.length_cons] at h
      cases hm : prMatch p (c :: tl) with
      | none =>
        rw [subPr_cons_none hm]
        have h1 : prMatch p (c :: subPr (some c) tl) = none :=
          prMatch_stable subPr (fun a c' tl' ha => subPr_word_step ha c' tl')
            (fun _ => rfl) hm
        rw [hasPr_cons_none h1]
        exact ih tl (by omega) (some c)
      | some kl =>
        obtain ⟨k, last⟩ := kl
        obtain ⟨-, hk1, hk2⟩ := prMatch_some_shape hm
        simp only [List.length_cons] at hk2
        rw [subPr_cons_some hm, hasPr_prov_append]
        exact WL_Pr (by decide) (ih ((c :: tl).drop k) (by simp; omega) (some last))

theorem hasM_subM : ∀ (n : Nat) (cs : Str), cs.length ≤ n →
    ∀ p, hasM p (subM p cs) = false := by
  intro n
  induction n with
  | zero =>
    intro cs h p
    have hcs : cs = [] := List.length_eq_zero.mp (Nat.le_zero.mp h)
    subst hcs; rfl
  | succ n ih =>
    intro cs h p
    cases cs with
    | nil => rfl
    | cons c tl =>
      simp only [List.length_cons] at h
      cases hm : mMatch p (c :: tl) with
      | none =>
        rw [subM_cons_none hm]
        have h1 : mMatch p (c :: subM (some c) tl) = none :=
          mMatch_stable subM (fun a c' tl' ha => subM_word_step ha c' tl')
            (fun _ => rfl) hm
        rw [hasM_cons_none h1]
        exact ih tl (by omega) (some c)
      | some kl =>
        obtain ⟨k, last⟩ := kl
        obtain ⟨hk1, hk2⟩ := mMatch_some_bounds hm
        simp only [List.length_cons] at hk2
        rw [subM_cons_some hm, hasM_maxim_append]
        exact WL_M (by decide) (ih ((c :: tl).drop k) (by simp; omega) (some last))

theorem hasPr_subM : ∀ (n : Nat) (cs : Str), cs.length ≤ n →
    ∀ p, hasPr p cs = false → hasPr p (subM p cs) = false := by
  intro n
  induction n with
  | zero =>
    intro cs h p _
    have hcs : cs = [] := List.length_eq_zero.mp (Nat.le_zero.mp h)
    subst hcs; rfl
  | succ n ih =>
    intro cs h p hpr
    cases cs with
    | nil => rfl
    | cons c tl =>
      simp only [List.length_cons] at h
      obtain ⟨hprm, hpr2⟩ := hasPr_none_inv hpr
      cases hm : mMatch p (c :: tl) with
      | none =>
        rw [subM_cons_none hm]
        have h1 : prMatch p (c :: subM (some c) tl) = none :=
          prMatch_stable subM (fun a c' tl' ha => subM_word_step ha c' tl')
            (fun _ => rfl) hprm
        rw [hasPr_cons_none h1]
        exact ih tl (by omega) (some c) hpr2
      | some kl =>
        obtain ⟨k, last⟩ := kl
        obtain ⟨hk1, hk2⟩ := mMatch_some_bounds hm
        simp only [List.length_cons] at hk2
        have hsuf : hasPr (some last) ((c :: tl).drop k) = false :=
          hasPr_suffix (c :: tl) p hpr (k - 1) last ((c :: tl).drop k)
            (mMatch_last_drop hm)
        rw [subM_cons_some hm, hasPr_maxim_append]
        exact WL_Pr (by decide) (ih ((c :: tl).drop k) (by simp; omega) (some last) hsuf)

/-- C9: the abbreviation expansion of `refactor_src_info` is idempotent —
applying the two `re.sub` passes (`Pr`/`Prov` → `Proverb`, then `M` →
`Maxim`) to a string that has already been through them changes nothing:
the replacement words `Proverb` and `Maxim` contain no further matches
and the substitution never creates a new match site. -/
theorem expandAbbrev_idem (cs : Str) :
    expandAbbrev (expandAbbrev cs) = expandAbbrev cs := by
  show subM none (subPr none (subM none (subPr none cs))) = subM none (subPr none cs)
  have hA : hasPr none (subPr none cs) = false :=
    hasPr_subPr cs.length cs le_rfl none
  have hA2 : hasPr none (subM none (subPr none cs)) = false :=
    hasPr_subM (subPr none cs).length (subPr none cs) le_rfl none hA
  have hM : hasM none (subM none (subPr none cs)) = false :=
    hasM_subM (subPr none cs).length (subPr none cs) le_rfl none
  rw [noA_id _ _ hA2, noM_id _ _ hM]

end Aph
